import Mathlib

/-!
Verification of the `linearize` diff/merge engine.

The Go code operates on `map[int32]any` style containers:
  * `LinearizedObject` : `map[int32]any`    (record, keyed by field number)
  * `LinearizedSlice`  : `map[int32]any`    (sequence, keyed by position)
  * `LinearizedMap`    : `map[int32][2]any` (dictionary, entries are key/value pairs)

Go maps are modelled by key-sorted association lists (`List (Nat × α)`):
every map the code builds inserts distinct keys, so the map as a
mathematical function is iteration-order independent and a canonical sorted
representative is a faithful embedding.  Each definition below mirrors the
corresponding Go function statement by statement: `Diff`/`compareValues`
from linearize_diff.go and `Merge`/`mergeSlices`/`mergeMaps` from the merge
file.  Go panics (nil-pointer dereference, failed type assertion, `==` on
uncomparable dynamic types) are modelled as an explicit `panicked` outcome,
distinct from an `error` return value.
-/

namespace Linearize

/-- `lmGet l k` is the Go map read `l[k]` (first matching entry). -/
def lmGet {α : Type} : List (Nat × α) → Nat → Option α
  | [], _ => none
  | (k', v) :: rest, k => if k' = k then some v else lmGet rest k

/-- `lmPut l k v` is the Go map write `l[k] = v`, keeping keys sorted. -/
def lmPut {α : Type} : List (Nat × α) → Nat → α → List (Nat × α)
  | [], k, v => [(k, v)]
  | (k', v') :: rest, k, v =>
    if k < k' then (k, v) :: (k', v') :: rest
    else if k = k' then (k, v) :: rest
    else (k', v') :: lmPut rest k v

/-- `lmDel l k` is the Go `delete(l, k)` (drops the first matching entry). -/
def lmDel {α : Type} : List (Nat × α) → Nat → List (Nat × α)
  | [], _ => []
  | (k', v') :: rest, k => if k' = k then rest else (k', v') :: lmDel rest k

/-- Every key of the list is strictly above the bound `b`. -/
def lmLB {α : Type} (b : Nat) : List (Nat × α) → Bool
  | [] => true
  | (k, _) :: rest => decide (b < k) && lmLB b rest

/-- Strictly increasing keys: the canonical-representative invariant. -/
def lmSortedB {α : Type} : List (Nat × α) → Bool
  | [] => true
  | (k, _) :: rest => lmLB k rest && lmSortedB rest

theorem lmLB_cons {α : Type} {b k : Nat} {v : α} {rest : List (Nat × α)} :
    lmLB b ((k, v) :: rest) = true ↔ b < k ∧ lmLB b rest = true := by
  simp [lmLB]

theorem lmSortedB_cons {α : Type} {k : Nat} {v : α} {rest : List (Nat × α)} :
    lmSortedB ((k, v) :: rest) = true ↔ lmLB k rest = true ∧ lmSortedB rest = true := by
  simp [lmSortedB]

theorem lmGet_none_of_LB {α : Type} {b k : Nat} {l : List (Nat × α)}
    (hb : lmLB b l = true) (hk : k ≤ b) : lmGet l k = none := by
  induction l with
  | nil => rfl
  | cons hd rest ih =>
    obtain ⟨k', v⟩ := hd
    rw [lmLB_cons] at hb
    obtain ⟨hb1, hb2⟩ := hb
    have : k' ≠ k := by omega
    simp [lmGet, this, ih hb2]

theorem lmLB_mono {α : Type} {b b' : Nat} {l : List (Nat × α)}
    (h : b' ≤ b) (hb : lmLB b l = true) : lmLB b' l = true := by
  induction l with
  | nil => rfl
  | cons hd rest ih =>
    obtain ⟨k, v⟩ := hd
    rw [lmLB_cons] at hb ⊢
    obtain ⟨hb1, hb2⟩ := hb
    exact ⟨by omega, ih hb2⟩

theorem lmLB_put {α : Type} {b k : Nat} {v : α} {l : List (Nat × α)}
    (hb : lmLB b l = true) (hk : b < k) : lmLB b (lmPut l k v) = true := by
  induction l with
  | nil => simp [lmPut, lmLB, hk]
  | cons hd rest ih =>
    obtain ⟨k0, v0⟩ := hd
    rw [lmLB_cons] at hb
    simp only [lmPut]
    by_cases h1 : k < k0
    · simp only [if_pos h1]
      rw [lmLB_cons, lmLB_cons]
      exact ⟨hk, hb.1, hb.2⟩
    · by_cases h2 : k = k0
      · simp only [if_neg h1, if_pos h2]
        rw [lmLB_cons]
        exact ⟨hk, hb.2⟩
      · simp only [if_neg h1, if_neg h2]
        rw [lmLB_cons]
        exact ⟨hb.1, ih hb.2⟩

theorem lmLB_del {α : Type} {b k : Nat} {l : List (Nat × α)}
    (hb : lmLB b l = true) : lmLB b (lmDel l k) = true := by
  induction l with
  | nil => rfl
  | cons hd rest ih =>
    obtain ⟨k0, v0⟩ := hd
    rw [lmLB_cons] at hb
    simp only [lmDel]
    by_cases h1 : k0 = k
    · simp only [if_pos h1]
      exact hb.2
    · simp only [if_neg h1]
      rw [lmLB_cons]
      exact ⟨hb.1, ih hb.2⟩

theorem lmGet_put_self {α : Type} (l : List (Nat × α)) (k : Nat) (v : α) :
    lmGet (lmPut l k v) k = some v := by
  induction l with
  | nil => simp [lmPut, lmGet]
  | cons hd rest ih =>
    obtain ⟨k0, v0⟩ := hd
    simp only [lmPut]
    by_cases h1 : k < k0
    · simp [if_pos h1, lmGet]
    · by_cases h2 : k = k0
      · simp [if_neg h1, if_pos h2, lmGet]
      · have h3 : k0 ≠ k := fun h => h2 h.symm
        simp [if_neg h1, if_neg h2, lmGet, h3, ih]

theorem lmGet_put_ne {α : Type} (l : List (Nat × α)) (k k' : Nat) (v : α)
    (h : k ≠ k') : lmGet (lmPut l k v) k' = lmGet l k' := by
  induction l with
  | nil => simp [lmPut, lmGet, h]
  | cons hd rest ih =>
    obtain ⟨k0, v0⟩ := hd
    simp only [lmPut]
    by_cases h1 : k < k0
    · simp [if_pos h1, lmGet, h]
    · by_cases h2 : k = k0
      · subst h2
        simp [if_neg h1, lmGet, h]
      · simp only [if_neg h1, if_neg h2, lmGet]
        by_cases h3 : k0 = k'
        · simp [h3]
        · simp [h3, ih]

theorem lmGet_del_ne {α : Type} (l : List (Nat × α)) (k k' : Nat) (h : k ≠ k') :
    lmGet (lmDel l k) k' = lmGet l k' := by
  induction l with
  | nil => simp [lmDel]
  | cons hd rest ih =>
    obtain ⟨k0, v0⟩ := hd
    simp only [lmDel]
    by_cases h1 : k0 = k
    · subst h1
      have h3 : k0 ≠ k' := h
      simp [lmGet, h3]
    · simp only [if_neg h1, lmGet]
      by_cases h2 : k0 = k'
      · simp [h2]
      · simp [h2, ih]

theorem lmGet_del_self {α : Type} (l : List (Nat × α)) (k : Nat)
    (hs : lmSortedB l = true) : lmGet (lmDel l k) k = none := by
  induction l with
  | nil => rfl
  | cons hd rest ih =>
    obtain ⟨k0, v0⟩ := hd
    rw [lmSortedB_cons] at hs
    simp only [lmDel]
    by_cases h1 : k0 = k
    · subst h1
      simp only [if_pos rfl]
      exact lmGet_none_of_LB hs.1 (le_refl k0)
    · simp only [if_neg h1, lmGet, if_neg h1]
      exact ih hs.2

theorem lmDel_absent {α : Type} (l : List (Nat × α)) (k : Nat)
    (h : lmGet l k = none) : lmDel l k = l := by
  induction l with
  | nil => rfl
  | cons hd rest ih =>
    obtain ⟨k0, v0⟩ := hd
    simp only [lmGet] at h
    by_cases h1 : k0 = k
    · simp [h1] at h
    · simp only [if_neg h1] at h
      simp [lmDel, h1, ih h]

theorem lmPut_sorted {α : Type} (l : List (Nat × α)) (k : Nat) (v : α)
    (hs : lmSortedB l = true) : lmSortedB (lmPut l k v) = true := by
  induction l with
  | nil => rfl
  | cons hd rest ih =>
    obtain ⟨k0, v0⟩ := hd
    rw [lmSortedB_cons] at hs
    obtain ⟨hs1, hs2⟩ := hs
    simp only [lmPut]
    by_cases h1 : k < k0
    · simp only [if_pos h1]
      rw [lmSortedB_cons, lmLB_cons]
      exact ⟨⟨h1, lmLB_mono (by omega) hs1⟩, lmSortedB_cons.mpr ⟨hs1, hs2⟩⟩
    · by_cases h2 : k = k0
      · simp only [if_neg h1, if_pos h2]
        rw [lmSortedB_cons]
        subst h2
        exact ⟨hs1, hs2⟩
      · simp only [if_neg h1, if_neg h2]
        rw [lmSortedB_cons]
        exact ⟨lmLB_put hs1 (by omega), ih hs2⟩

theorem lmDel_sorted {α : Type} (l : List (Nat × α)) (k : Nat)
    (hs : lmSortedB l = true) : lmSortedB (lmDel l k) = true := by
  induction l with
  | nil => rfl
  | cons hd rest ih =>
    obtain ⟨k0, v0⟩ := hd
    rw [lmSortedB_cons] at hs
    simp only [lmDel]
    by_cases h1 : k0 = k
    · simp only [if_pos h1]
      exact hs.2
    · simp only [if_neg h1]
      rw [lmSortedB_cons]
      exact ⟨lmLB_del hs.1, ih hs.2⟩

theorem lmLB_lt_of_mem {α : Type} {b k : Nat} {v : α} {l : List (Nat × α)}
    (hb : lmLB b l = true) (hm : (k, v) ∈ l) : b < k := by
  induction l with
  | nil => simp at hm
  | cons hd rest ih =>
    obtain ⟨k0, v0⟩ := hd
    rw [lmLB_cons] at hb
    rcases List.mem_cons.mp hm with h | h
    · cases h
      exact hb.1
    · exact ih hb.2 h

theorem lmGet_eq_of_mem_sorted {α : Type} {l : List (Nat × α)} {k : Nat} {v : α}
    (hs : lmSortedB l = true) (hm : (k, v) ∈ l) : lmGet l k = some v := by
  induction l with
  | nil => simp at hm
  | cons hd rest ih =>
    obtain ⟨k0, v0⟩ := hd
    rw [lmSortedB_cons] at hs
    obtain ⟨hs1, hs2⟩ := hs
    rcases List.mem_cons.mp hm with h | h
    · cases h
      simp [lmGet]
    · have : k0 ≠ k := by
        have := lmLB_lt_of_mem hs1 h
        omega
      simp only [lmGet, if_neg this]
      exact ih hs2 h

theorem lmExt {α : Type} (l l' : List (Nat × α))
    (hs : lmSortedB l = true) (hs' : lmSortedB l' = true)
    (h : ∀ k, lmGet l k = lmGet l' k) : l = l' := by
  induction l generalizing l' with
  | nil =>
    cases l' with
    | nil => rfl
    | cons hd tl =>
      obtain ⟨k, v⟩ := hd
      have := h k
      simp [lmGet] at this
  | cons hd rest ih =>
    obtain ⟨k0, v0⟩ := hd
    cases l' with
    | nil =>
      have := h k0
      simp [lmGet] at this
    | cons hd' rest' =>
      obtain ⟨k0', v0'⟩ := hd'
      rw [lmSortedB_cons] at hs hs'
      obtain ⟨hsa, hsb⟩ := hs
      obtain ⟨hsa', hsb'⟩ := hs'
      have hk : k0 = k0' := by
        by_contra hne
        rcases Nat.lt_or_ge k0 k0' with hlt | hge
        · have hh := h k0
          have hne2 : k0' ≠ k0 := by omega
          simp only [lmGet, if_pos rfl, if_neg hne2] at hh
          rw [@lmGet_none_of_LB α k0' k0 rest' hsa' (by omega)] at hh
          exact absurd hh (by simp)
        · have hlt2 : k0' < k0 := by omega
          have hh := h k0'
          have hne2 : k0 ≠ k0' := by omega
          simp only [lmGet, if_pos rfl, if_neg hne2] at hh
          rw [@lmGet_none_of_LB α k0 k0' rest hsa (by omega)] at hh
          exact absurd hh (by simp)
      subst hk
      have hv : v0 = v0' := by
        have hh := h k0
        simpa [lmGet] using hh
      subst hv
      have : rest = rest' := by
        refine ih rest' hsb hsb' ?_
        intro k
        by_cases hkk : k0 = k
        · subst hkk
          rw [@lmGet_none_of_LB α k0 k0 rest hsa (le_refl k0),
            @lmGet_none_of_LB α k0 k0 rest' hsa' (le_refl k0)]
        · have hh := h k
          simpa [lmGet, if_neg hkk] using hh
      rw [this]

theorem lmPut_same {α : Type} (l : List (Nat × α)) (k : Nat) (v : α)
    (hs : lmSortedB l = true) (h : lmGet l k = some v) : lmPut l k v = l := by
  refine lmExt (lmPut l k v) l (lmPut_sorted l k v hs) hs ?_
  intro k'
  by_cases hk : k = k'
  · subst hk
    rw [lmGet_put_self, h]
  · rw [lmGet_put_ne l k k' v hk]

theorem lmGet_isSome_of_ne_nil {α : Type} (l : List (Nat × α)) (hl : l ≠ []) :
    ∃ k v, lmGet l k = some v := by
  cases l with
  | nil => exact absurd rfl hl
  | cons hd tl =>
    obtain ⟨k, v⟩ := hd
    exact ⟨k, v, by simp [lmGet]⟩


/-! ## The tree value model

`LinValue` models the Go `any` values that flow through the engine:
`nilV` is the nil interface, `scalar` an opaque comparable leaf, `pairV`
a `[2]any` dictionary entry, and `obj`/`sliceV`/`dictV` the three
composite container types (`LinearizedObject`, `LinearizedSlice`,
`LinearizedMap`). -/

inductive LinValue : Type where
  | nilV : LinValue
  | scalar (n : Nat) : LinValue
  | pairV (a b : LinValue) : LinValue
  | obj (m : List (Nat × LinValue)) : LinValue
  | sliceV (m : List (Nat × LinValue)) : LinValue
  | dictV (m : List (Nat × (LinValue × LinValue))) : LinValue

/-- `map[int32]any` holding a flattened record. -/
abbrev LinearizedObject := List (Nat × LinValue)

/-- `map[int32]any` holding a sequence (repeated field), keyed by position. -/
abbrev LinearizedSlice := List (Nat × LinValue)

/-- `map[int32][2]any` holding a dictionary of key/value pairs. -/
abbrev LinearizedMap := List (Nat × (LinValue × LinValue))

/-- Outcome of the Go interface comparison `a == b`: equal, unequal, or a
run-time panic (`comparing uncomparable type`, raised when both sides have
the same uncomparable dynamic type, such as a map). -/
inductive EqRes : Type where
  | eq : EqRes
  | ne : EqRes
  | panicked : EqRes

/-- Go `==` on two interface values.  Different dynamic types compare
unequal; maps (`obj`/`sliceV`/`dictV`) with equal dynamic types panic;
`[2]any` pairs compare element-wise, short-circuiting on inequality. -/
def goEq : LinValue → LinValue → EqRes
  | .nilV, .nilV => .eq
  | .scalar a, .scalar b => if a = b then .eq else .ne
  | .pairV a b, .pairV c d =>
    match goEq a c with
    | .panicked => .panicked
    | .ne => .ne
    | .eq => goEq b d
  | .obj _, .obj _ => .panicked
  | .sliceV _, .sliceV _ => .panicked
  | .dictV _, .dictV _ => .panicked
  | _, _ => .ne

/-! ## Update masks

The protobuf-generated mask types:
`UpdateMask { Values map[int32]*UpdateMaskValue }` and
`UpdateMaskValue { Op UpdateMaskOperation; Masks *UpdateMask }`.
The nullable `Masks` pointer becomes `Option UpdateMask`. -/

inductive UpdateMaskOperation : Type where
  | ADD : UpdateMaskOperation
  | REMOVE : UpdateMaskOperation
  | UPDATE : UpdateMaskOperation
  deriving DecidableEq

inductive UpdateMask : Type where
  | mk (values : List (Nat × (UpdateMaskOperation × Option UpdateMask))) : UpdateMask

/-- The `Values` field of an `UpdateMask`. -/
def UpdateMask.values : UpdateMask → List (Nat × (UpdateMaskOperation × Option UpdateMask))
  | .mk v => v

/-! ## The merge engine

Models `Merge`, `mergeSlices`, `mergeMaps` from the merge file
(src/unnamed/part_002).  A Go `error` return carries a message; a panic
(nil-mask dereference or failed type assertion `diff[pos].(T)`) is the
separate `panicked` outcome. -/

/-- Result of a Go call that returns `(T, error)` but may also panic. -/
inductive MergeRes (α : Type) : Type where
  | ok (val : α) : MergeRes α
  | err (msg : String) : MergeRes α
  | panicked : MergeRes α

/-- One mask entry of `mergeSlices`: ADD/UPDATE overwrite from `diff` when
present, REMOVE deletes; the nested mask field is ignored by the Go code. -/
def mergeSlicesGo : List (Nat × (UpdateMaskOperation × Option UpdateMask)) →
    LinearizedSlice → LinearizedSlice → LinearizedSlice
  | [], merged, _ => merged
  | (pos, op, _) :: rest, merged, diff =>
    match op with
    | .ADD =>
      mergeSlicesGo rest
        (match lmGet diff pos with
         | some diffVal => lmPut merged pos diffVal
         | none => merged) diff
    | .REMOVE => mergeSlicesGo rest (lmDel merged pos) diff
    | .UPDATE =>
      mergeSlicesGo rest
        (match lmGet diff pos with
         | some diffVal => lmPut merged pos diffVal
         | none => merged) diff

/-- `mergeSlices` from the merge file: copy `current`, then fold the mask
entries over it.  The Go function's error return is always nil. -/
def mergeSlices (mask : UpdateMask) (current diff : LinearizedSlice) : LinearizedSlice :=
  mergeSlicesGo mask.values current diff

/-- Same fold for `mergeMaps` over `map[int32][2]any` entries. -/
def mergeMapsGo : List (Nat × (UpdateMaskOperation × Option UpdateMask)) →
    LinearizedMap → LinearizedMap → LinearizedMap
  | [], merged, _ => merged
  | (pos, op, _) :: rest, merged, diff =>
    match op with
    | .ADD =>
      mergeMapsGo rest
        (match lmGet diff pos with
         | some diffVal => lmPut merged pos diffVal
         | none => merged) diff
    | .REMOVE => mergeMapsGo rest (lmDel merged pos) diff
    | .UPDATE =>
      mergeMapsGo rest
        (match lmGet diff pos with
         | some diffVal => lmPut merged pos diffVal
         | none => merged) diff

/-- `mergeMaps` from the merge file. -/
def mergeMaps (mask : UpdateMask) (current diff : LinearizedMap) : LinearizedMap :=
  mergeMapsGo mask.values current diff

/-- The shared ADD/UPDATE write: `if diffVal, ok := diff[pos]; ok { merged[pos] = diffVal }`. -/
def overwriteFromDiff (merged diff : LinearizedObject) (pos : Nat) : LinearizedObject :=
  match lmGet diff pos with
  | some diffVal => lmPut merged pos diffVal
  | none => merged

/-- Outcome of processing one mask entry in the `Merge` loop: continue with
an updated accumulator, or return early (error or panic). -/
inductive StepOut : Type where
  | cont (merged : LinearizedObject) : StepOut
  | halt (res : MergeRes LinearizedObject) : StepOut

mutual

/-- The body of the `Merge` loop for one entry `(pos, maskValue)`:
ADD/UPDATE overwrite `merged[pos]` from `diff` when present, REMOVE deletes
`merged[pos]`, and an UPDATE whose `Masks` field is non-nil additionally
recurses into the value `current[pos]` (when it exists), dispatching on its
dynamic type: `LinearizedObject`/`LinearizedSlice`/`LinearizedMap` merge
recursively (the `diff[pos].(T)` assertion panics on a type mismatch), and
any other type returns the "unsupported type" error. -/
def mergeStep (pos : Nat) (op : UpdateMaskOperation) (masks : Option UpdateMask)
    (merged current diff : LinearizedObject) : StepOut :=
  match op with
  | .ADD => .cont (overwriteFromDiff merged diff pos)
  | .REMOVE => .cont (lmDel merged pos)
  | .UPDATE =>
    match masks with
    | none => .cont (overwriteFromDiff merged diff pos)
    | some nestedMask =>
      match lmGet current pos with
      | none => .cont (overwriteFromDiff merged diff pos)
      | some nestedVal =>
        match nestedVal with
        | .obj o =>
          match lmGet diff pos with
          | some (.obj d) =>
            match mergeObj nestedMask o d with
            | .ok mergedValue => .cont (lmPut (overwriteFromDiff merged diff pos) pos (.obj mergedValue))
            | .err e => .halt (.err e)
            | .panicked => .halt .panicked
          | _ => .halt .panicked
        | .sliceV s =>
          match lmGet diff pos with
          | some (.sliceV d) => .cont (lmPut (overwriteFromDiff merged diff pos) pos (.sliceV (mergeSlices nestedMask s d)))
          | _ => .halt .panicked
        | .dictV mp =>
          match lmGet diff pos with
          | some (.dictV d) => .cont (lmPut (overwriteFromDiff merged diff pos) pos (.dictV (mergeMaps nestedMask mp d)))
          | _ => .halt .panicked
        | _ => .halt (.err ("unsupported type for key " ++ toString pos))

/-- The `Merge` loop over the mask entries: `merged` is the accumulator
(started from a copy of `current`), `current` the unmodified second
argument the nested merges consult. -/
def mergeObjGo : List (Nat × (UpdateMaskOperation × Option UpdateMask)) →
    LinearizedObject → LinearizedObject → LinearizedObject → MergeRes LinearizedObject
  | [], merged, _, _ => .ok merged
  | (pos, op, masks) :: rest, merged, current, diff =>
    match mergeStep pos op masks merged current diff with
    | .cont merged2 => mergeObjGo rest merged2 current diff
    | .halt res => res

/-- `Merge` with a non-nil mask pointer. -/
def mergeObj (mask : UpdateMask) (current diff : LinearizedObject) : MergeRes LinearizedObject :=
  match mask with
  | .mk values => mergeObjGo values current current diff

end

/-- `Merge(mask, current, diff)` from the merge file.  The Go signature
takes `mask *UpdateMask`; ranging over `mask.Values` dereferences the
pointer, so a nil mask panics before anything else happens. -/
def Merge (mask : Option UpdateMask) (current diff : LinearizedObject) :
    MergeRes LinearizedObject :=
  match mask with
  | none => .panicked
  | some m => mergeObj m current diff

/-! ## The diff engine

Models `Diff` and `compareValues` from linearize_diff.go.  `compareValues`
returns `(changed, nestedBefore, nestedAfter, nestedMask)`; a Go panic
(uncomparable `==`, failed `[2]any` assertion) is the `panicked` outcome. -/

/-- Mask entries under construction (`map[int32]*UpdateMaskValue`). -/
abbrev MaskEntries := List (Nat × (UpdateMaskOperation × Option UpdateMask))

/-- Result of `compareValues`. -/
inductive CmpRes : Type where
  | panicked : CmpRes
  | res (changed : Bool) (nestedBefore nestedAfter : LinValue) (nestedMask : Option UpdateMask) : CmpRes

/-- Second loop of the object comparison: every key of `latest` absent from
`prev` is an ADD (`before[key] = nil`, `after[key] = latestVal`). -/
def objAddScan : LinearizedObject → LinearizedObject → LinearizedObject → LinearizedObject →
    MaskEntries → Bool → LinearizedObject × LinearizedObject × MaskEntries × Bool
  | [], _, before, after, mask, changed => (before, after, mask, changed)
  | (key, latestVal) :: rest, prev, before, after, mask, changed =>
    match lmGet prev key with
    | some _ => objAddScan rest prev before after mask changed
    | none =>
      objAddScan rest prev (lmPut before key .nilV) (lmPut after key latestVal)
        (lmPut mask key (.ADD, none)) true

/-- Second loop of the dictionary comparison: new keys of `latest` are ADDs
(`mergedBefore[key] = [2]any{}`, `mergedAfter[key] = latestVal`). -/
def dictAddScan : LinearizedMap → LinearizedMap → LinearizedMap → LinearizedMap →
    MaskEntries → Bool → LinearizedMap × LinearizedMap × MaskEntries × Bool
  | [], _, before, after, mask, changed => (before, after, mask, changed)
  | (key, latestVal) :: rest, prev, before, after, mask, changed =>
    match lmGet prev key with
    | some _ => dictAddScan rest prev before after mask changed
    | none =>
      dictAddScan rest prev (lmPut before key (.nilV, .nilV)) (lmPut after key latestVal)
        (lmPut mask key (.ADD, none)) true

/-- `elemBefore.([2]any)` guarded by `elemBefore != nil`: skip on nil, store
the pair, and panic (`none`) when the dynamic type is not `[2]any`. -/
def putPair (m : LinearizedMap) (key : Nat) : LinValue → Option LinearizedMap
  | .nilV => some m
  | .pairV a b => some (lmPut m key (a, b))
  | _ => none

mutual

/-- `compareValues` from linearize_diff.go: dispatch on the dynamic type of
`prevValue`.  A composite `prevValue` whose `latestValue` fails the matching
type assertion falls through to the final `return false, nil, nil, nil`. -/
def compareValues : LinValue → LinValue → CmpRes
  | .obj prev, latestValue =>
    match latestValue with
    | .obj latest => cmpObjGo prev prev latest false [] [] []
    | _ => .res false .nilV .nilV none
  | .sliceV prev, latestValue =>
    match latestValue with
    | .sliceV latest =>
      cmpSliceGo prev latest prev.length latest.length (max prev.length latest.length) 0
        false [] [] []
    | _ => .res false .nilV .nilV none
  | .dictV prev, latestValue =>
    match latestValue with
    | .dictV latest => cmpDictGo prev prev latest false [] [] []
    | _ => .res false .nilV .nilV none
  | prevValue, latestValue =>
    match goEq prevValue latestValue with
    | .panicked => .panicked
    | .ne => .res true prevValue latestValue none
    | .eq => .res false .nilV .nilV none
termination_by a _ => (sizeOf a, 1, 0)
decreasing_by
  all_goals simp_wf
  all_goals first
    | (apply Prod.Lex.left; first | omega | (simp; all_goals omega))
    | (apply Prod.Lex.right; apply Prod.Lex.left; omega)
    | (apply Prod.Lex.right; apply Prod.Lex.right; omega)

/-- First loop of the object comparison, over the entries of `prev`:
removed keys are REMOVEs, shared keys are compared recursively and record
an UPDATE when changed, and unchanged keys keep both values. -/
def cmpObjGo : List (Nat × LinValue) → LinearizedObject → LinearizedObject → Bool →
    LinearizedObject → LinearizedObject → MaskEntries → CmpRes
  | [], prev, latest, changed, before, after, mask =>
    match objAddScan latest prev before after mask changed with
    | (before1, after1, mask1, changed1) =>
      .res changed1 (.obj before1) (.obj after1) (some (.mk mask1))
  | (key, prevVal) :: rest, prev, latest, changed, before, after, mask =>
    match lmGet latest key with
    | none =>
      cmpObjGo rest prev latest true (lmPut before key prevVal) (lmPut after key .nilV)
        (lmPut mask key (.REMOVE, none))
    | some latestVal =>
      match compareValues prevVal latestVal with
      | .panicked => .panicked
      | .res elemChanged elemBefore elemAfter elemMask =>
        if elemChanged then
          cmpObjGo rest prev latest true (lmPut before key elemBefore)
            (lmPut after key elemAfter) (lmPut mask key (.UPDATE, elemMask))
        else
          cmpObjGo rest prev latest changed (lmPut before key prevVal)
            (lmPut after key latestVal) mask
termination_by entries _ _ _ _ _ _ => (sizeOf entries, 0, 0)
decreasing_by
  all_goals simp_wf
  all_goals first
    | (apply Prod.Lex.left; first | omega | (simp; all_goals omega))
    | (apply Prod.Lex.right; apply Prod.Lex.left; omega)
    | (apply Prod.Lex.right; apply Prod.Lex.right; omega)

/-- The slice comparison loop `for i := 0; i < maxLen; i++`.  Reading a
position beyond the map's contents yields the nil interface.  When the
sequence shrank, only positions at or past `prevLen-1` become REMOVEs; any
other changed position becomes an UPDATE carrying the element mask. -/
def cmpSliceGo (p l : LinearizedSlice) (prevLen latestLen maxLen i : Nat) (changed : Bool)
    (before after : LinearizedSlice) (mask : MaskEntries) : CmpRes :=
  if _h : i < maxLen then
    match compareValues (if i < prevLen then (lmGet p i).getD .nilV else .nilV)
        (if i < latestLen then (lmGet l i).getD .nilV else .nilV) with
    | .panicked => .panicked
    | .res elemChanged elemBefore elemAfter elemMask =>
      if elemChanged then
        if latestLen < prevLen ∧ prevLen - 1 ≤ i then
          cmpSliceGo p l prevLen latestLen maxLen (i + 1) true (lmPut before i elemBefore)
            after (lmPut mask i (.REMOVE, none))
        else
          cmpSliceGo p l prevLen latestLen maxLen (i + 1) true (lmPut before i elemBefore)
            (lmPut after i elemAfter) (lmPut mask i (.UPDATE, elemMask))
      else
        cmpSliceGo p l prevLen latestLen maxLen (i + 1) changed (lmPut before i elemBefore)
          after mask
  else .res changed (.sliceV before) (.sliceV after) (some (.mk mask))
termination_by (1 + sizeOf p, 0, maxLen - i)
decreasing_by
  · apply Prod.Lex.left
    have hget : ∀ (l2 : List (Nat × LinValue)) (k : Nat),
        sizeOf ((lmGet l2 k).getD LinValue.nilV) < 1 + sizeOf l2 := by
      intro l2 k
      induction l2 with
      | nil => simp [lmGet]
      | cons hd tl ih =>
        obtain ⟨k2, v2⟩ := hd
        simp only [lmGet]
        by_cases hk : k2 = k
        · simp only [if_pos hk, Option.getD_some]
          simp
          omega
        · simp only [if_neg hk]
          simp at ih ⊢
          omega
    split
    · exact hget p i
    · cases p with
      | nil => simp
      | cons hd tl =>
        simp
        all_goals omega
  all_goals
    apply Prod.Lex.right
    apply Prod.Lex.right
    omega

/-- First loop of the dictionary comparison, over the key/value pairs of
`prev`: removed keys are REMOVEs; shared keys compare the two `[2]any`
pairs (which can panic on uncomparable pair components); the results are
cast back to `[2]any` before being stored. -/
def cmpDictGo : List (Nat × (LinValue × LinValue)) → LinearizedMap → LinearizedMap → Bool →
    LinearizedMap → LinearizedMap → MaskEntries → CmpRes
  | [], prev, latest, changed, before, after, mask =>
    match dictAddScan latest prev before after mask changed with
    | (before1, after1, mask1, changed1) =>
      .res changed1 (.dictV before1) (.dictV after1) (some (.mk mask1))
  | (key, pa, pb) :: rest, prev, latest, changed, before, after, mask =>
    match lmGet latest key with
    | none =>
      cmpDictGo rest prev latest true (lmPut before key (pa, pb))
        (lmPut after key (.nilV, .nilV)) (lmPut mask key (.REMOVE, none))
    | some latestVal =>
      match compareValues (.pairV pa pb) (.pairV latestVal.1 latestVal.2) with
      | .panicked => .panicked
      | .res elemChanged elemBefore elemAfter elemMask =>
        match putPair before key elemBefore with
        | none => .panicked
        | some before1 =>
          match putPair after key elemAfter with
          | none => .panicked
          | some after1 =>
            if elemChanged then
              cmpDictGo rest prev latest true before1 after1 (lmPut mask key (.UPDATE, elemMask))
            else
              cmpDictGo rest prev latest changed before1 (lmPut after1 key latestVal) mask
termination_by entries _ _ _ _ _ _ => (sizeOf entries, 0, 0)
decreasing_by
  all_goals simp_wf
  all_goals first
    | (apply Prod.Lex.left; first | omega | (simp; all_goals omega))
    | (apply Prod.Lex.right; apply Prod.Lex.left; omega)
    | (apply Prod.Lex.right; apply Prod.Lex.right; omega)

end

/-- Result of `Diff`: the `(before, after, mask, err)` quadruple with `err`
always nil, or a panic escaping the comparison. -/
inductive DiffRes : Type where
  | panicked : DiffRes
  | res (before after : Option LinearizedObject) (mask : Option UpdateMask) : DiffRes

/-- First loop of `Diff`, over the entries of `previous`: removed keys are
REMOVEs; shared keys are compared and record an UPDATE (with the nested
mask when present) only when changed — unchanged keys leave no trace. -/
def diffGo : List (Nat × LinValue) → LinearizedObject → LinearizedObject →
    LinearizedObject → MaskEntries →
    Option (LinearizedObject × LinearizedObject × MaskEntries)
  | [], _, before, after, masks => some (before, after, masks)
  | (key, prevValue) :: rest, latest, before, after, masks =>
    match lmGet latest key with
    | none =>
      diffGo rest latest (lmPut before key prevValue) (lmPut after key .nilV)
        (lmPut masks key (.REMOVE, none))
    | some latestValue =>
      match compareValues prevValue latestValue with
      | .panicked => none
      | .res changed nestedBefore nestedAfter nestedMask =>
        if changed then
          diffGo rest latest (lmPut before key nestedBefore) (lmPut after key nestedAfter)
            (lmPut masks key (.UPDATE, nestedMask))
        else
          diffGo rest latest before after masks

/-- Second loop of `Diff`: keys added in `latest`. -/
def diffAddScan : List (Nat × LinValue) → LinearizedObject → LinearizedObject →
    LinearizedObject → MaskEntries → LinearizedObject × LinearizedObject × MaskEntries
  | [], _, before, after, masks => (before, after, masks)
  | (key, latestValue) :: rest, previous, before, after, masks =>
    match lmGet previous key with
    | some _ => diffAddScan rest previous before after masks
    | none =>
      diffAddScan rest previous (lmPut before key .nilV) (lmPut after key latestValue)
        (lmPut masks key (.ADD, none))

/-- `Diff(previous, latest)` from linearize_diff.go: when at least one mask
entry was produced return the three populated values, otherwise return nil
for everything. -/
def Diff (previous latest : LinearizedObject) : DiffRes :=
  match diffGo previous latest [] [] [] with
  | none => .panicked
  | some (before1, after1, masks1) =>
    match diffAddScan latest previous before1 after1 masks1 with
    | (before2, after2, masks2) =>
      if masks2.isEmpty then .res none none none
      else .res (some before2) (some after2) (some (.mk masks2))

/-! ## Shape helpers -/

/-- The dynamic type ("shape") of a value. -/
inductive VKind : Type where
  | nilK : VKind
  | scalarK : VKind
  | pairK : VKind
  | objK : VKind
  | sliceK : VKind
  | dictK : VKind
  deriving DecidableEq

/-- Dynamic type of a `LinValue`. -/
def kindOf : LinValue → VKind
  | .nilV => .nilK
  | .scalar _ => .scalarK
  | .pairV _ _ => .pairK
  | .obj _ => .objK
  | .sliceV _ => .sliceK
  | .dictV _ => .dictK

/-- Whether a value is one of the three composite container types. -/
def isComposite : LinValue → Bool
  | .obj _ => true
  | .sliceV _ => true
  | .dictV _ => true
  | _ => false

/-- Lookup in the `Values` map of a mask. -/
def maskGet (mask : UpdateMask) (k : Nat) : Option (UpdateMaskOperation × Option UpdateMask) :=
  lmGet mask.values k

/-- A dense sequence built from a list of element values, positions
`s, s+1, ...` (how `Linearize` populates a `LinearizedSlice`). -/
def ofListFrom (s : Nat) : List LinValue → LinearizedSlice
  | [] => []
  | v :: vs => (s, v) :: ofListFrom (s + 1) vs

/-- A dense sequence with positions `0 .. length-1`. -/
def ofList (vs : List LinValue) : LinearizedSlice :=
  ofListFrom 0 vs

/-- A run of `k` UPDATE entries (no nested mask) at positions `i .. i+k-1`. -/
def updRun (i : Nat) : Nat → MaskEntries
  | 0 => []
  | Nat.succ k => (i, (.UPDATE, none)) :: updRun (i + 1) k

/-- The entries the slice comparison emits for `k` trailing dropped
positions starting at `i`: UPDATEs, then a single REMOVE at the last. -/
def dropRun (i : Nat) : Nat → MaskEntries
  | 0 => []
  | 1 => [(i, (.REMOVE, none))]
  | Nat.succ (Nat.succ k) => (i, (.UPDATE, none)) :: dropRun (i + 1) (Nat.succ k)

/-! ## Claim C10 -/

/-- Claim C10: `Merge` is only defined for a non-nil mask.  Called with the
nil mask — exactly what `Diff` returns for two structurally identical
inputs, as the second conjunct shows on a concrete record — `Merge`
dereferences `mask.Values` and panics instead of returning a tree, so the
Diff-then-Merge composition is total only when `Diff` reported a change. -/
theorem c10_merge_nil_mask_panics :
    (∀ current diff : LinearizedObject, Merge none current diff = .panicked) ∧
    Diff [(1, .scalar 0)] [(1, .scalar 0)] = .res none none none := by
  constructor
  · intro current diff
    rfl
  · simp [Diff, diffGo, diffAddScan, compareValues, goEq, lmGet]

/-! ## Claim C7 -/

/-- Claim C7, counterexample: the claim says a shape mismatch always yields
`changed = true` with the raw values.  But when the *previous* side is a
composite (here a `Record`) and the latest a `Scalar`, the type switch
matches the composite case, the inner type assertion on `latestValue`
fails, and `compareValues` falls through to `return false, nil, nil, nil`:
the mismatch is reported as *no change*. -/
theorem c7_counterexample :
    compareValues (.obj [(1, .scalar 5)]) (.scalar 7) = .res false .nilV .nilV none := by
  simp [compareValues]

/-- Claim C7, amended: a shape mismatch is a full replacement
(`changed = true`, no nested mask, raw values) only when the previous value
is *not* composite (nil, `Scalar`, or a `[2]any` pair); when the previous
value is composite (`Record`/`Sequence`/`Dictionary`) and the latest has a
different shape, `compareValues` reports `changed = false` with nil
results. -/
theorem c7_amended (prev latest : LinValue) (h : kindOf prev ≠ kindOf latest) :
    (isComposite prev = false → compareValues prev latest = .res true prev latest none) ∧
    (isComposite prev = true → compareValues prev latest = .res false .nilV .nilV none) := by
  cases prev <;> cases latest <;>
    simp_all [kindOf, isComposite, compareValues, goEq]

/-- Witness for `c7_amended` at `prev = Scalar 3`, `latest = Record {}`. -/
theorem c7_amended_witness :
    compareValues (.scalar 3) (.obj []) = .res true (.scalar 3) (.obj []) none := by
  have h := c7_amended (.scalar 3) (.obj []) (by simp [kindOf])
  exact h.1 rfl

/-! ## Claim C3 -/

/-- Claim C3 (the code contradicts it): `Diff(A, A)` does *not* return a
nil mask for every `A`.  When `A` holds a `Dictionary` whose entry value is
a composite (exactly what `Linearize` produces for a protobuf map of
messages), the dictionary comparison calls `compareValues` on two `[2]any`
pairs; the default case evaluates `prevValue != latestValue`, and Go `==`
panics on the uncomparable map type inside the pair.  At this input `Diff`
panics instead of returning `(nil, nil, nil, nil)`. -/
theorem c3_diff_self_panics_on_message_dictionary :
    Diff [(1, .dictV [(0, (.scalar 0, .obj []))])]
      [(1, .dictV [(0, (.scalar 0, .obj []))])] = .panicked := by
  simp [Diff, diffGo, cmpDictGo, compareValues, goEq, lmGet]

/-! ## Properties of the merge loop step -/

theorem overwriteFromDiff_get_ne (merged diff : LinearizedObject) (pos k : Nat) (hk : pos ≠ k) :
    lmGet (overwriteFromDiff merged diff pos) k = lmGet merged k := by
  unfold overwriteFromDiff
  cases lmGet diff pos with
  | none => rfl
  | some dv => simp [lmGet_put_ne, hk]

theorem overwriteFromDiff_sorted (merged diff : LinearizedObject) (pos : Nat)
    (hs : lmSortedB merged = true) : lmSortedB (overwriteFromDiff merged diff pos) = true := by
  unfold overwriteFromDiff
  cases lmGet diff pos with
  | none => exact hs
  | some dv => exact lmPut_sorted merged pos dv hs

/-- A step never halts with a successful result: early returns are errors
or panics only. -/
theorem mergeStep_ne_halt_ok (pos : Nat) (op : UpdateMaskOperation) (masks : Option UpdateMask)
    (merged current diff : LinearizedObject) (r : LinearizedObject) :
    mergeStep pos op masks merged current diff ≠ .halt (.ok r) := by
  cases op with
  | ADD => unfold mergeStep; simp
  | REMOVE => unfold mergeStep; simp
  | UPDATE =>
    unfold mergeStep
    repeat' split
    all_goals simp

/-- A continuing step only writes at its own position: every other key of
the accumulator is untouched. -/
theorem mergeStep_cont_get_ne (pos : Nat) (op : UpdateMaskOperation) (masks : Option UpdateMask)
    (merged current diff s : LinearizedObject)
    (h : mergeStep pos op masks merged current diff = .cont s)
    (k : Nat) (hk : pos ≠ k) : lmGet s k = lmGet merged k := by
  revert h
  cases op with
  | ADD =>
    unfold mergeStep
    intro h
    cases h
    exact overwriteFromDiff_get_ne merged diff pos k hk
  | REMOVE =>
    unfold mergeStep
    intro h
    cases h
    exact lmGet_del_ne merged pos k hk
  | UPDATE =>
    unfold mergeStep
    repeat' split
    all_goals intro h
    all_goals cases h
    all_goals
      first
        | exact overwriteFromDiff_get_ne merged diff pos k hk
        | (rw [lmGet_put_ne _ pos k _ hk]; exact overwriteFromDiff_get_ne merged diff pos k hk)

/-- A continuing step keeps the accumulator key-sorted. -/
theorem mergeStep_cont_sorted (pos : Nat) (op : UpdateMaskOperation) (masks : Option UpdateMask)
    (merged current diff s : LinearizedObject)
    (h : mergeStep pos op masks merged current diff = .cont s)
    (hs : lmSortedB merged = true) : lmSortedB s = true := by
  revert h
  cases op with
  | ADD =>
    unfold mergeStep
    intro h
    cases h
    exact overwriteFromDiff_sorted merged diff pos hs
  | REMOVE =>
    unfold mergeStep
    intro h
    cases h
    exact lmDel_sorted merged pos hs
  | UPDATE =>
    unfold mergeStep
    repeat' split
    all_goals intro h
    all_goals cases h
    all_goals
      first
        | exact overwriteFromDiff_sorted merged diff pos hs
        | exact lmPut_sorted _ pos _ (overwriteFromDiff_sorted merged diff pos hs)

/-- The step for an entry whose nested mask sits over a non-composite
current value is exactly the "unsupported type" error. -/
theorem mergeStep_unsupported (pos : Nat) (m : UpdateMask)
    (merged current diff : LinearizedObject) (v : LinValue)
    (hcur : lmGet current pos = some v) (hcomp : isComposite v = false) :
    mergeStep pos .UPDATE (some m) merged current diff
      = .halt (.err ("unsupported type for key " ++ toString pos)) := by
  unfold mergeStep
  rw [hcur]
  cases v with
  | obj o => simp [isComposite] at hcomp
  | sliceV s => simp [isComposite] at hcomp
  | dictV d => simp [isComposite] at hcomp
  | nilV => rfl
  | scalar n => rfl
  | pairV a b => rfl

/-! ## Claim C8 -/

/-- If some mask entry carries a nested mask at a position whose
current-side value exists but is not composite, no run of the merge loop
returns `ok`: the loop either fails earlier or reaches that entry and
returns the "unsupported type" error. -/
theorem mergeObjGo_bad_entry_ne_ok (entries : MaskEntries) :
    ∀ (merged current diff : LinearizedObject) (pos : Nat) (m : UpdateMask) (v : LinValue),
      lmGet entries pos = some (.UPDATE, some m) →
      lmGet current pos = some v →
      isComposite v = false →
      ∀ r, mergeObjGo entries merged current diff ≠ .ok r := by
  induction entries with
  | nil =>
    intro merged current diff pos m v hmask hcur hcomp r
    simp [lmGet] at hmask
  | cons hd rest ih =>
    obtain ⟨p, op, mk⟩ := hd
    intro merged current diff pos m v hmask hcur hcomp r hok
    simp only [mergeObjGo] at hok
    by_cases hp : p = pos
    · subst hp
      simp [lmGet] at hmask
      obtain ⟨hop, hmk⟩ := hmask
      subst hop
      subst hmk
      rw [mergeStep_unsupported p m merged current diff v hcur hcomp] at hok
      cases hok
    · simp only [lmGet, if_neg hp] at hmask
      cases hstep : mergeStep p op mk merged current diff with
      | cont merged2 =>
        rw [hstep] at hok
        exact ih merged2 current diff pos m v hmask hcur hcomp r hok
      | halt res =>
        rw [hstep] at hok
        cases res with
        | ok rr =>
          exact mergeStep_ne_halt_ok p op mk merged current diff rr hstep
        | err e => cases hok
        | panicked => cases hok

/-- Claim C8: a mask entry holding a nested composite mask at a slot whose
current-side value exists but is not a composite of the expected kind
(for example a `Scalar`) makes `Merge` fail: it can never return a merged
tree, and with that entry alone it returns precisely the
"unsupported type" error, rather than silently skipping or coercing the
slot. -/
theorem c8_nested_mask_over_scalar_errors (mask : UpdateMask)
    (current diff : LinearizedObject) (pos : Nat) (m : UpdateMask) (v : LinValue)
    (hmask : maskGet mask pos = some (.UPDATE, some m))
    (hcur : lmGet current pos = some v)
    (hcomp : isComposite v = false) :
    (∀ r, Merge (some mask) current diff ≠ .ok r) ∧
    Merge (some (.mk [(pos, (.UPDATE, some m))])) current diff
      = .err ("unsupported type for key " ++ toString pos) := by
  constructor
  · intro r
    obtain ⟨values⟩ := mask
    exact mergeObjGo_bad_entry_ne_ok values current current diff pos m v hmask hcur hcomp r
  · show mergeObjGo [(pos, (.UPDATE, some m))] current current diff = _
    simp only [mergeObjGo]
    rw [mergeStep_unsupported pos m current current diff v hcur hcomp]

/-- Witness for `c8_nested_mask_over_scalar_errors` at a concrete mask,
current tree and diff. -/
theorem c8_witness :
    (∀ r, Merge (some (.mk [(1, (.UPDATE, some (.mk [])))])) [(1, .scalar 3)] []
      ≠ .ok r) ∧
    Merge (some (.mk [(1, (.UPDATE, some (.mk [])))])) [(1, .scalar 3)] []
      = .err ("unsupported type for key " ++ toString 1) := by
  exact c8_nested_mask_over_scalar_errors (.mk [(1, (.UPDATE, some (.mk [])))])
    [(1, .scalar 3)] [] 1 (.mk []) (.scalar 3) (by simp [maskGet, lmGet]) (by simp [lmGet]) rfl

/-! ## Claim C2 -/

/-- Keys absent from the processed mask entries keep their accumulator
value through the merge loop. -/
theorem mergeObjGo_frame (entries : MaskEntries) :
    ∀ (merged current diff res : LinearizedObject) (k : Nat),
      mergeObjGo entries merged current diff = .ok res →
      lmGet entries k = none →
      lmGet res k = lmGet merged k := by
  induction entries with
  | nil =>
    intro merged current diff res k hok hk
    cases hok
    rfl
  | cons hd rest ih =>
    obtain ⟨p, op, mk⟩ := hd
    intro merged current diff res k hok hk
    simp only [lmGet] at hk
    by_cases hp : p = k
    · simp [hp] at hk
    · simp only [if_neg hp] at hk
      simp only [mergeObjGo] at hok
      cases hstep : mergeStep p op mk merged current diff with
      | cont merged2 =>
        rw [hstep] at hok
        rw [ih merged2 current diff res k hok hk]
        exact mergeStep_cont_get_ne p op mk merged current diff merged2 hstep k hp
      | halt res2 =>
        rw [hstep] at hok
        cases res2 with
        | ok rr =>
          exact absurd hstep (mergeStep_ne_halt_ok p op mk merged current diff rr)
        | err e => cases hok
        | panicked => cases hok

/-- Positions absent from the mask keep their value through `mergeSlices`. -/
theorem mergeSlicesGo_frame (entries : MaskEntries) :
    ∀ (merged diff : LinearizedSlice) (k : Nat),
      lmGet entries k = none →
      lmGet (mergeSlicesGo entries merged diff) k = lmGet merged k := by
  induction entries with
  | nil => intro merged diff k hk; rfl
  | cons hd rest ih =>
    obtain ⟨p, op, mk⟩ := hd
    intro merged diff k hk
    simp only [lmGet] at hk
    by_cases hp : p = k
    · simp [hp] at hk
    · simp only [if_neg hp] at hk
      cases op with
      | ADD =>
        simp only [mergeSlicesGo]
        rw [ih _ diff k hk]
        cases lmGet diff p <;> simp [lmGet_put_ne, hp]
      | REMOVE =>
        simp only [mergeSlicesGo]
        rw [ih _ diff k hk]
        exact lmGet_del_ne merged p k hp
      | UPDATE =>
        simp only [mergeSlicesGo]
        rw [ih _ diff k hk]
        cases lmGet diff p <;> simp [lmGet_put_ne, hp]

/-- Keys absent from the mask keep their value through `mergeMaps`. -/
theorem mergeMapsGo_frame (entries : MaskEntries) :
    ∀ (merged diff : LinearizedMap) (k : Nat),
      lmGet entries k = none →
      lmGet (mergeMapsGo entries merged diff) k = lmGet merged k := by
  induction entries with
  | nil => intro merged diff k hk; rfl
  | cons hd rest ih =>
    obtain ⟨p, op, mk⟩ := hd
    intro merged diff k hk
    simp only [lmGet] at hk
    by_cases hp : p = k
    · simp [hp] at hk
    · simp only [if_neg hp] at hk
      cases op with
      | ADD =>
        simp only [mergeMapsGo]
        rw [ih _ diff k hk]
        cases lmGet diff p <;> simp [lmGet_put_ne, hp]
      | REMOVE =>
        simp only [mergeMapsGo]
        rw [ih _ diff k hk]
        exact lmGet_del_ne merged p k hp
      | UPDATE =>
        simp only [mergeMapsGo]
        rw [ih _ diff k hk]
        cases lmGet diff p <;> simp [lmGet_put_ne, hp]

/-- Claim C2: a key absent from the mask keeps its current value in the
merge result, for all three merge functions — the top-level record merge
(when it succeeds), `mergeSlices` and `mergeMaps`.  Nested levels recurse
through these same three functions, so the same statement applies at every
depth. -/
theorem c2_unmasked_keys_untouched :
    (∀ (mask : UpdateMask) (current diff res : LinearizedObject) (k : Nat),
       Merge (some mask) current diff = .ok res →
       maskGet mask k = none →
       lmGet res k = lmGet current k) ∧
    (∀ (mask : UpdateMask) (current diff : LinearizedSlice) (k : Nat),
       maskGet mask k = none →
       lmGet (mergeSlices mask current diff) k = lmGet current k) ∧
    (∀ (mask : UpdateMask) (current diff : LinearizedMap) (k : Nat),
       maskGet mask k = none →
       lmGet (mergeMaps mask current diff) k = lmGet current k) := by
  refine ⟨?_, ?_, ?_⟩
  · intro mask current diff res k hok hk
    obtain ⟨values⟩ := mask
    exact mergeObjGo_frame values current current diff res k hok hk
  · intro mask current diff k hk
    obtain ⟨values⟩ := mask
    exact mergeSlicesGo_frame values current diff k hk
  · intro mask current diff k hk
    obtain ⟨values⟩ := mask
    exact mergeMapsGo_frame values current diff k hk

/-- Witness for `c2_unmasked_keys_untouched` on a concrete record merge:
key `2` is not in the mask and keeps its value. -/
theorem c2_witness :
    lmGet [(1, LinValue.scalar 5), (2, LinValue.scalar 7)] 2
      = lmGet [(1, LinValue.scalar 0), (2, LinValue.scalar 7)] 2 := by
  exact c2_unmasked_keys_untouched.1 (.mk [(1, (.UPDATE, none))])
    [(1, .scalar 0), (2, .scalar 7)] [(1, .scalar 5)]
    [(1, .scalar 5), (2, .scalar 7)] 2 rfl rfl

/-! ## Claim C9 -/

/-- Deleting the first REMOVE entry aimed at a key the accumulator does not
hold leaves the merge loop's behaviour unchanged: that step deletes an
absent key, which is a no-op, and every other step is identical. -/
theorem mergeObjGo_remove_absent (entries : MaskEntries) :
    ∀ (merged current diff : LinearizedObject) (k : Nat) (mk : Option UpdateMask),
      lmGet entries k = some (.REMOVE, mk) →
      lmGet merged k = none →
      mergeObjGo entries merged current diff
        = mergeObjGo (lmDel entries k) merged current diff := by
  induction entries with
  | nil =>
    intro merged current diff k mk hmask hcur
    simp [lmGet] at hmask
  | cons hd rest ih =>
    obtain ⟨p, op, mkk⟩ := hd
    intro merged current diff k mk hmask hcur
    by_cases hp : p = k
    · subst hp
      simp [lmGet] at hmask
      obtain ⟨hop, hmk⟩ := hmask
      subst hop
      simp only [lmDel, if_pos rfl]
      simp only [mergeObjGo]
      have hstep : mergeStep p .REMOVE mkk merged current diff = .cont merged := by
        unfold mergeStep
        rw [lmDel_absent merged p hcur]
      rw [hstep]
      rfl
    · simp only [lmGet, if_neg hp] at hmask
      simp only [lmDel, if_neg hp]
      simp only [mergeObjGo]
      cases hstep : mergeStep p op mkk merged current diff with
      | cont merged2 =>
        have hcur2 : lmGet merged2 k = none := by
          rw [mergeStep_cont_get_ne p op mkk merged current diff merged2 hstep k hp]
          exact hcur
        exact ih merged2 current diff k mk hmask hcur2
      | halt res => rfl

/-- Claim C9: a REMOVE entry whose field identifier is absent from
`current` is a no-op: `Merge` behaves exactly as if that entry were not in
the mask, and with that entry alone it succeeds and returns `current`
unchanged. -/
theorem c9_remove_absent_is_noop (mask : UpdateMask) (current diff : LinearizedObject)
    (k : Nat) (mk : Option UpdateMask)
    (hmask : maskGet mask k = some (.REMOVE, mk))
    (hcur : lmGet current k = none) :
    Merge (some mask) current diff = Merge (some (.mk (lmDel mask.values k))) current diff ∧
    Merge (some (.mk [(k, (.REMOVE, mk))])) current diff = .ok current := by
  constructor
  · obtain ⟨values⟩ := mask
    exact mergeObjGo_remove_absent values current current diff k mk hmask hcur
  · show mergeObjGo [(k, (.REMOVE, mk))] current current diff = .ok current
    simp only [mergeObjGo]
    have hstep : mergeStep k .REMOVE mk current current diff = .cont current := by
      unfold mergeStep
      rw [lmDel_absent current k hcur]
    rw [hstep]

/-- Witness for `c9_remove_absent_is_noop` at a concrete mask and record:
removing absent key `5` changes nothing and succeeds. -/
theorem c9_witness :
    Merge (some (.mk [(1, (.UPDATE, none)), (5, (.REMOVE, none))]))
        [(1, .scalar 0)] [(1, .scalar 9)]
      = Merge (some (.mk (lmDel [(1, (.UPDATE, none)), (5, (.REMOVE, none))] 5)))
        [(1, .scalar 0)] [(1, .scalar 9)] ∧
    Merge (some (.mk [(5, (.REMOVE, none))])) [(1, .scalar 0)] [(1, .scalar 9)]
      = .ok [(1, .scalar 0)] := by
  exact c9_remove_absent_is_noop (.mk [(1, (.UPDATE, none)), (5, (.REMOVE, none))])
    [(1, .scalar 0)] [(1, .scalar 9)] 5 none (by simp [maskGet, lmGet]) (by simp [lmGet])

/-! ## Claim C4: compatibility predicates and auxiliary idempotence -/

mutual

/-- Deep well-formedness of a value: every container inside is key-sorted
(the canonical representative of a Go map). -/
def wfV : LinValue → Bool
  | .nilV => true
  | .scalar _ => true
  | .pairV a b => wfV a && wfV b
  | .obj m => lmSortedB m && wfVals m
  | .sliceV m => lmSortedB m && wfVals m
  | .dictV m => lmSortedB m && wfPairs m

/-- All values of an object/slice entry list are well-formed. -/
def wfVals : List (Nat × LinValue) → Bool
  | [] => true
  | (_, v) :: rest => wfV v && wfVals rest

/-- All pair components of a dictionary entry list are well-formed. -/
def wfPairs : List (Nat × (LinValue × LinValue)) → Bool
  | [] => true
  | (_, a, b) :: rest => wfV a && wfV b && wfPairs rest

end

/-- A well-formed record: sorted keys, well-formed values. -/
def wfMapB (l : LinearizedObject) : Bool :=
  lmSortedB l && wfVals l

mutual

/-- Deep well-formedness of a mask: its `Values` entries are key-sorted and
every nested mask is well-formed. -/
def wfMaskB : UpdateMask → Bool
  | .mk values => lmSortedB values && wfMaskVals values

/-- All nested masks of an entry list are well-formed. -/
def wfMaskVals : MaskEntries → Bool
  | [] => true
  | (_, _, none) :: rest => wfMaskVals rest
  | (_, _, some m) :: rest => wfMaskB m && wfMaskVals rest

end

mutual

/-- The mask/tree compatibility the merge's nested recursion relies on:
every UPDATE entry that carries a nested mask must find a composite of the
matching kind at its position on both the current and the diff side
(recursively so for records). -/
def compatB : UpdateMask → LinearizedObject → LinearizedObject → Bool
  | .mk values, cur, diff => compatGo values cur diff

/-- `compatB` over the entry list. -/
def compatGo : MaskEntries → LinearizedObject → LinearizedObject → Bool
  | [], _, _ => true
  | (pos, op, masks) :: rest, cur, diff =>
    (match op, masks with
     | .UPDATE, some m =>
       (match lmGet cur pos, lmGet diff pos with
        | some (.obj o), some (.obj d) => compatB m o d
        | some (.sliceV _), some (.sliceV _) => true
        | some (.dictV _), some (.dictV _) => true
        | _, _ => false)
     | _, _ => true)
    && compatGo rest cur diff

end

theorem wfVals_get (l : List (Nat × LinValue)) :
    ∀ (p : Nat) (v : LinValue), wfVals l = true → lmGet l p = some v → wfV v = true := by
  induction l with
  | nil => intro p v _ h; simp [lmGet] at h
  | cons hd rest ih =>
    obtain ⟨k, w⟩ := hd
    intro p v hwf hget
    simp only [wfVals, Bool.and_eq_true] at hwf
    simp only [lmGet] at hget
    by_cases hk : k = p
    · simp only [if_pos hk, Option.some.injEq] at hget
      rw [← hget]
      exact hwf.1
    · simp only [if_neg hk] at hget
      exact ih p v hwf.2 hget

theorem wfMaskVals_get (l : MaskEntries) :
    ∀ (p : Nat) (op : UpdateMaskOperation) (m : UpdateMask),
      wfMaskVals l = true → lmGet l p = some (op, some m) → wfMaskB m = true := by
  induction l with
  | nil => intro p op m _ h; simp [lmGet] at h
  | cons hd rest ih =>
    obtain ⟨k, kop, kmk⟩ := hd
    intro p op m hwf hget
    simp only [lmGet] at hget
    by_cases hk : k = p
    · simp only [if_pos hk, Option.some.injEq] at hget
      cases kmk with
      | none => simp [Prod.ext_iff] at hget
      | some km =>
        simp only [wfMaskVals, Bool.and_eq_true] at hwf
        have : km = m := by
          simp [Prod.ext_iff] at hget
          exact hget.2
        rw [← this]
        exact hwf.1
    · simp only [if_neg hk] at hget
      cases kmk with
      | none => exact ih p op m hwf hget
      | some km =>
        simp only [wfMaskVals, Bool.and_eq_true] at hwf
        exact ih p op m hwf.2 hget

/-- The merge loop preserves sortedness of the accumulator. -/
theorem mergeObjGo_sorted (entries : MaskEntries) :
    ∀ (s current diff r : LinearizedObject),
      mergeObjGo entries s current diff = .ok r →
      lmSortedB s = true → lmSortedB r = true := by
  induction entries with
  | nil =>
    intro s current diff r hok hs
    cases hok
    exact hs
  | cons hd rest ih =>
    obtain ⟨p, op, mk⟩ := hd
    intro s current diff r hok hs
    simp only [mergeObjGo] at hok
    cases hstep : mergeStep p op mk s current diff with
    | cont s1 =>
      rw [hstep] at hok
      exact ih s1 current diff r hok (mergeStep_cont_sorted p op mk s current diff s1 hstep hs)
    | halt res =>
      rw [hstep] at hok
      cases res with
      | ok rr => exact absurd hstep (mergeStep_ne_halt_ok p op mk s current diff rr)
      | err e => cases hok
      | panicked => cases hok

/-- `mergeSlices` preserves sortedness. -/
theorem mergeSlicesGo_sorted (entries : MaskEntries) :
    ∀ (s diff : LinearizedSlice), lmSortedB s = true →
      lmSortedB (mergeSlicesGo entries s diff) = true := by
  induction entries with
  | nil => intro s diff hs; exact hs
  | cons hd rest ih =>
    obtain ⟨p, op, mk⟩ := hd
    intro s diff hs
    cases op with
    | ADD =>
      simp only [mergeSlicesGo]
      cases lmGet diff p with
      | none => exact ih s diff hs
      | some dv => exact ih _ diff (lmPut_sorted s p dv hs)
    | REMOVE =>
      simp only [mergeSlicesGo]
      exact ih _ diff (lmDel_sorted s p hs)
    | UPDATE =>
      simp only [mergeSlicesGo]
      cases lmGet diff p with
      | none => exact ih s diff hs
      | some dv => exact ih _ diff (lmPut_sorted s p dv hs)

/-- `mergeMaps` preserves sortedness. -/
theorem mergeMapsGo_sorted (entries : MaskEntries) :
    ∀ (s diff : LinearizedMap), lmSortedB s = true →
      lmSortedB (mergeMapsGo entries s diff) = true := by
  induction entries with
  | nil => intro s diff hs; exact hs
  | cons hd rest ih =>
    obtain ⟨p, op, mk⟩ := hd
    intro s diff hs
    cases op with
    | ADD =>
      simp only [mergeMapsGo]
      cases lmGet diff p with
      | none => exact ih s diff hs
      | some dv => exact ih _ diff (lmPut_sorted s p dv hs)
    | REMOVE =>
      simp only [mergeMapsGo]
      exact ih _ diff (lmDel_sorted s p hs)
    | UPDATE =>
      simp only [mergeMapsGo]
      cases lmGet diff p with
      | none => exact ih s diff hs
      | some dv => exact ih _ diff (lmPut_sorted s p dv hs)

/-- Applying the `mergeSlices` loop twice is the same as applying it once
(for a mask with distinct keys over a sorted sequence). -/
theorem mergeSlicesGo_idem (entries : MaskEntries) :
    ∀ (s diff : LinearizedSlice), lmSortedB entries = true → lmSortedB s = true →
      mergeSlicesGo entries (mergeSlicesGo entries s diff) diff
        = mergeSlicesGo entries s diff := by
  induction entries with
  | nil => intro s diff _ _; rfl
  | cons hd rest ih =>
    obtain ⟨p, op, mk⟩ := hd
    intro s diff hse hs
    rw [lmSortedB_cons] at hse
    obtain ⟨hlb, hse2⟩ := hse
    have hrestp : lmGet rest p = none := by
      have : ∀ (x : UpdateMaskOperation × Option UpdateMask), lmLB p rest = true → lmGet rest p = none :=
        fun _ h => lmGet_none_of_LB h (le_refl p)
      exact lmGet_none_of_LB hlb (le_refl p)
    cases op with
    | ADD =>
      cases hd2 : lmGet diff p with
      | none => simp only [mergeSlicesGo, hd2]; exact ih s diff hse2 hs
      | some dv =>
        simp only [mergeSlicesGo, hd2]
        have hs1 : lmSortedB (lmPut s p dv) = true := lmPut_sorted s p dv hs
        have hF : lmGet (mergeSlicesGo rest (lmPut s p dv) diff) p = some dv := by
          rw [mergeSlicesGo_frame rest (lmPut s p dv) diff p hrestp]
          exact lmGet_put_self s p dv
        rw [lmPut_same _ p dv (mergeSlicesGo_sorted rest _ diff hs1) hF]
        exact ih (lmPut s p dv) diff hse2 hs1
    | REMOVE =>
      simp only [mergeSlicesGo]
      have hs1 : lmSortedB (lmDel s p) = true := lmDel_sorted s p hs
      have hF : lmGet (mergeSlicesGo rest (lmDel s p) diff) p = none := by
        rw [mergeSlicesGo_frame rest (lmDel s p) diff p hrestp]
        exact lmGet_del_self s p hs
      rw [lmDel_absent _ p hF]
      exact ih (lmDel s p) diff hse2 hs1
    | UPDATE =>
      cases hd2 : lmGet diff p with
      | none => simp only [mergeSlicesGo, hd2]; exact ih s diff hse2 hs
      | some dv =>
        simp only [mergeSlicesGo, hd2]
        have hs1 : lmSortedB (lmPut s p dv) = true := lmPut_sorted s p dv hs
        have hF : lmGet (mergeSlicesGo rest (lmPut s p dv) diff) p = some dv := by
          rw [mergeSlicesGo_frame rest (lmPut s p dv) diff p hrestp]
          exact lmGet_put_self s p dv
        rw [lmPut_same _ p dv (mergeSlicesGo_sorted rest _ diff hs1) hF]
        exact ih (lmPut s p dv) diff hse2 hs1

/-- Applying the `mergeMaps` loop twice is the same as applying it once. -/
theorem mergeMapsGo_idem (entries : MaskEntries) :
    ∀ (s diff : LinearizedMap), lmSortedB entries = true → lmSortedB s = true →
      mergeMapsGo entries (mergeMapsGo entries s diff) diff
        = mergeMapsGo entries s diff := by
  induction entries with
  | nil => intro s diff _ _; rfl
  | cons hd rest ih =>
    obtain ⟨p, op, mk⟩ := hd
    intro s diff hse hs
    rw [lmSortedB_cons] at hse
    obtain ⟨hlb, hse2⟩ := hse
    have hrestp : lmGet rest p = none := lmGet_none_of_LB hlb (le_refl p)
    cases op with
    | ADD =>
      cases hd2 : lmGet diff p with
      | none => simp only [mergeMapsGo, hd2]; exact ih s diff hse2 hs
      | some dv =>
        simp only [mergeMapsGo, hd2]
        have hs1 : lmSortedB (lmPut s p dv) = true := lmPut_sorted s p dv hs
        have hF : lmGet (mergeMapsGo rest (lmPut s p dv) diff) p = some dv := by
          rw [mergeMapsGo_frame rest (lmPut s p dv) diff p hrestp]
          exact lmGet_put_self s p dv
        rw [lmPut_same _ p dv (mergeMapsGo_sorted rest _ diff hs1) hF]
        exact ih (lmPut s p dv) diff hse2 hs1
    | REMOVE =>
      simp only [mergeMapsGo]
      have hs1 : lmSortedB (lmDel s p) = true := lmDel_sorted s p hs
      have hF : lmGet (mergeMapsGo rest (lmDel s p) diff) p = none := by
        rw [mergeMapsGo_frame rest (lmDel s p) diff p hrestp]
        exact lmGet_del_self s p hs
      rw [lmDel_absent _ p hF]
      exact ih (lmDel s p) diff hse2 hs1
    | UPDATE =>
      cases hd2 : lmGet diff p with
      | none => simp only [mergeMapsGo, hd2]; exact ih s diff hse2 hs
      | some dv =>
        simp only [mergeMapsGo, hd2]
        have hs1 : lmSortedB (lmPut s p dv) = true := lmPut_sorted s p dv hs
        have hF : lmGet (mergeMapsGo rest (lmPut s p dv) diff) p = some dv := by
          rw [mergeMapsGo_frame rest (lmPut s p dv) diff p hrestp]
          exact lmGet_put_self s p dv
        rw [lmPut_same _ p dv (mergeMapsGo_sorted rest _ diff hs1) hF]
        exact ih (lmPut s p dv) diff hse2 hs1

theorem overwrite_get_self (s diff : LinearizedObject) (p : Nat) (dv : LinValue)
    (hd : lmGet diff p = some dv) : lmGet (overwriteFromDiff s diff p) p = some dv := by
  unfold overwriteFromDiff
  rw [hd]
  exact lmGet_put_self s p dv

theorem overwrite_noop (r diff : LinearizedObject) (p : Nat) (hs : lmSortedB r = true)
    (h : ∀ dv, lmGet diff p = some dv → lmGet r p = some dv) :
    overwriteFromDiff r diff p = r := by
  unfold overwriteFromDiff
  cases hd : lmGet diff p with
  | none => rfl
  | some dv => exact lmPut_same r p dv hs (h dv hd)

theorem put_over_eq (r diff : LinearizedObject) (p : Nat) (w : LinValue)
    (hs : lmSortedB r = true) (hw : lmGet r p = some w) :
    lmPut (overwriteFromDiff r diff p) p w = r := by
  refine lmExt _ r (lmPut_sorted _ p w (overwriteFromDiff_sorted r diff p hs)) hs ?_
  intro k
  by_cases hk : p = k
  · subst hk
    rw [lmGet_put_self, hw]
  · rw [lmGet_put_ne _ p k w hk]
    exact overwriteFromDiff_get_ne r diff p k hk

/-- The key step of idempotence: a second pass of the merge loop, started
from the first pass's successful result (used both as accumulator and as
the current tree), reproduces that result — provided every nested mask sat
over compatible composite values, the mask keys are distinct and the trees
are canonical. -/
theorem mergeObjGo_idem_aux (n : Nat) :
    ∀ (entries : MaskEntries), sizeOf entries ≤ n →
    ∀ (s current diff r : LinearizedObject),
      mergeObjGo entries s current diff = .ok r →
      compatGo entries current diff = true →
      wfMaskVals entries = true →
      lmSortedB entries = true →
      wfMapB current = true →
      lmSortedB s = true →
      mergeObjGo entries r r diff = .ok r := by
  induction n with
  | zero =>
    intro entries hsz
    exact absurd hsz (by cases entries <;> simp)
  | succ n ih =>
    intro entries hsz s current diff r h1 h2 h3 h4 h5 h6
    cases entries with
    | nil =>
      cases h1
      rfl
    | cons hd rest =>
      obtain ⟨p, op, mk⟩ := hd
      have hszrest : sizeOf rest ≤ n := by
        simp at hsz
        omega
      simp only [mergeObjGo] at h1
      cases hstep : mergeStep p op mk s current diff with
      | halt res =>
        rw [hstep] at h1
        cases res with
        | ok rr => exact absurd hstep (mergeStep_ne_halt_ok p op mk s current diff rr)
        | err e => cases h1
        | panicked => cases h1
      | cont s1 =>
        rw [hstep] at h1
        have hs1 : lmSortedB s1 = true := mergeStep_cont_sorted p op mk s current diff s1 hstep h6
        have hr : lmSortedB r = true := mergeObjGo_sorted rest s1 current diff r h1 hs1
        rw [lmSortedB_cons] at h4
        obtain ⟨hlb, h4r⟩ := h4
        have hrestp : lmGet rest p = none := lmGet_none_of_LB hlb (le_refl p)
        have hframe : lmGet r p = lmGet s1 p :=
          mergeObjGo_frame rest s1 current diff r p h1 hrestp
        unfold compatGo at h2
        rw [Bool.and_eq_true] at h2
        obtain ⟨hc_head, h2r⟩ := h2
        have h3r : wfMaskVals rest = true := by
          cases mk with
          | none => exact h3
          | some m =>
            simp only [wfMaskVals, Bool.and_eq_true] at h3
            exact h3.2
        have hstep2 : mergeStep p op mk r r diff = .cont r := by
          cases op with
          | ADD =>
            unfold mergeStep at hstep ⊢
            cases hstep
            rw [overwrite_noop r diff p hr]
            intro dv hd
            rw [hframe]
            exact overwrite_get_self s diff p dv hd
          | REMOVE =>
            unfold mergeStep at hstep ⊢
            cases hstep
            have : lmGet r p = none := by
              rw [hframe]
              exact lmGet_del_self s p h6
            rw [lmDel_absent r p this]
          | UPDATE =>
            cases mk with
            | none =>
              unfold mergeStep at hstep ⊢
              cases hstep
              rw [overwrite_noop r diff p hr]
              intro dv hd
              rw [hframe]
              exact overwrite_get_self s diff p dv hd
            | some m =>
              cases hcu : lmGet current p with
              | none => rw [hcu] at hc_head; simp at hc_head
              | some cv =>
                rw [hcu] at hc_head
                cases hdif : lmGet diff p with
                | none =>
                  rw [hdif] at hc_head
                  cases cv <;> simp at hc_head
                | some dv =>
                  rw [hdif] at hc_head
                  cases cv with
                  | nilV => simp at hc_head
                  | scalar a => simp at hc_head
                  | pairV a b => simp at hc_head
                  | obj o =>
                    cases dv with
                    | nilV => simp at hc_head
                    | scalar a => simp at hc_head
                    | pairV a b => simp at hc_head
                    | sliceV d => simp at hc_head
                    | dictV d => simp at hc_head
                    | obj d =>
                      unfold mergeStep at hstep
                      simp only [hcu, hdif] at hstep
                      cases hm : mergeObj m o d with
                      | err e => simp only [hm] at hstep; cases hstep
                      | panicked => simp only [hm] at hstep; cases hstep
                      | ok mv =>
                        simp only [hm] at hstep
                        cases hstep
                        have hrp : lmGet r p = some (.obj mv) := by
                          rw [hframe, lmGet_put_self]
                        have hwfo : wfV (.obj o) = true := by
                          simp only [wfMapB, Bool.and_eq_true] at h5
                          exact wfVals_get current p (.obj o) h5.2 hcu
                        simp only [wfV, Bool.and_eq_true] at hwfo
                        have hwfm : wfMaskB m = true := by
                          simp only [wfMaskVals, Bool.and_eq_true] at h3
                          exact h3.1
                        obtain ⟨mvals⟩ := m
                        simp only [wfMaskB, Bool.and_eq_true] at hwfm
                        have hszm : sizeOf mvals ≤ n := by
                          simp at hsz
                          omega
                        have hmv : mergeObjGo mvals mv mv d = .ok mv := by
                          have := ih mvals hszm o o d mv hm hc_head hwfm.2 hwfm.1
                            (by simp [wfMapB, hwfo.1, hwfo.2]) hwfo.1
                          exact this
                        unfold mergeStep
                        simp only [hrp, hdif]
                        show (match mergeObjGo mvals mv mv d with
                          | MergeRes.ok mergedValue =>
                            StepOut.cont (lmPut (overwriteFromDiff r diff p) p (.obj mergedValue))
                          | .err e => .halt (.err e)
                          | .panicked => .halt .panicked) = .cont r
                        rw [hmv]
                        show StepOut.cont (lmPut (overwriteFromDiff r diff p) p (.obj mv)) = .cont r
                        rw [put_over_eq r diff p (.obj mv) hr hrp]
                  | sliceV s0 =>
                    cases dv with
                    | nilV => simp at hc_head
                    | scalar a => simp at hc_head
                    | pairV a b => simp at hc_head
                    | obj d => simp at hc_head
                    | dictV d => simp at hc_head
                    | sliceV d =>
                      unfold mergeStep at hstep
                      simp only [hcu, hdif] at hstep
                      cases hstep
                      have hrp : lmGet r p = some (.sliceV (mergeSlices m s0 d)) := by
                        rw [hframe, lmGet_put_self]
                      have hwfo : wfV (.sliceV s0) = true := by
                        simp only [wfMapB, Bool.and_eq_true] at h5
                        exact wfVals_get current p (.sliceV s0) h5.2 hcu
                      simp only [wfV, Bool.and_eq_true] at hwfo
                      have hwfm : wfMaskB m = true := by
                        simp only [wfMaskVals, Bool.and_eq_true] at h3
                        exact h3.1
                      obtain ⟨mvals⟩ := m
                      simp only [wfMaskB, Bool.and_eq_true] at hwfm
                      have hms : mergeSlices (.mk mvals) (mergeSlices (.mk mvals) s0 d) d
                          = mergeSlices (.mk mvals) s0 d := by
                        show mergeSlicesGo mvals (mergeSlicesGo mvals s0 d) d
                          = mergeSlicesGo mvals s0 d
                        exact mergeSlicesGo_idem mvals s0 d hwfm.1 hwfo.1
                      unfold mergeStep
                      simp only [hrp, hdif]
                      show StepOut.cont (lmPut (overwriteFromDiff r diff p) p
                          (.sliceV (mergeSlices (.mk mvals) (mergeSlices (.mk mvals) s0 d) d)))
                        = .cont r
                      rw [hms]
                      rw [put_over_eq r diff p (.sliceV (mergeSlices (.mk mvals) s0 d)) hr hrp]
                  | dictV m0 =>
                    cases dv with
                    | nilV => simp at hc_head
                    | scalar a => simp at hc_head
                    | pairV a b => simp at hc_head
                    | obj d => simp at hc_head
                    | sliceV d => simp at hc_head
                    | dictV d =>
                      unfold mergeStep at hstep
                      simp only [hcu, hdif] at hstep
                      cases hstep
                      have hrp : lmGet r p = some (.dictV (mergeMaps m m0 d)) := by
                        rw [hframe, lmGet_put_self]
                      have hwfo : wfV (.dictV m0) = true := by
                        simp only [wfMapB, Bool.and_eq_true] at h5
                        exact wfVals_get current p (.dictV m0) h5.2 hcu
                      simp only [wfV, Bool.and_eq_true] at hwfo
                      have hwfm : wfMaskB m = true := by
                        simp only [wfMaskVals, Bool.and_eq_true] at h3
                        exact h3.1
                      obtain ⟨mvals⟩ := m
                      simp only [wfMaskB, Bool.and_eq_true] at hwfm
                      have hms : mergeMaps (.mk mvals) (mergeMaps (.mk mvals) m0 d) d
                          = mergeMaps (.mk mvals) m0 d := by
                        show mergeMapsGo mvals (mergeMapsGo mvals m0 d) d
                          = mergeMapsGo mvals m0 d
                        exact mergeMapsGo_idem mvals m0 d hwfm.1 hwfo.1
                      unfold mergeStep
                      simp only [hrp, hdif]
                      show StepOut.cont (lmPut (overwriteFromDiff r diff p) p
                          (.dictV (mergeMaps (.mk mvals) (mergeMaps (.mk mvals) m0 d) d)))
                        = .cont r
                      rw [hms]
                      rw [put_over_eq r diff p (.dictV (mergeMaps (.mk mvals) m0 d)) hr hrp]
        simp only [mergeObjGo]
        rw [hstep2]
        exact ih rest hszrest s1 current diff r h1 h2r h3r h4r h5 hs1

/-- Claim C4, counterexample: applying the same mask twice with the same
diff is **not** always the same as applying it once.  The mask holds a
nested mask at key 1 with a REMOVE of nested key 2; `current` lacks key 1,
so the first pass just copies `diff[1]` without entering the nested mask,
while the second pass finds key 1 present and applies the nested REMOVE. -/
theorem c4_counterexample :
    Merge (some (.mk [(1, (.UPDATE, some (.mk [(2, (.REMOVE, none))])))]))
        [] [(1, .obj [(2, .scalar 9)])]
      = .ok [(1, .obj [(2, .scalar 9)])] ∧
    Merge (some (.mk [(1, (.UPDATE, some (.mk [(2, (.REMOVE, none))])))]))
        [(1, .obj [(2, .scalar 9)])] [(1, .obj [(2, .scalar 9)])]
      = .ok [(1, .obj [])] ∧
    ([(1, LinValue.obj [(2, LinValue.scalar 9)])] : LinearizedObject) ≠ [(1, .obj [])] := by
  refine ⟨rfl, rfl, ?_⟩
  simp

/-- Claim C4, amended: merge **is** idempotent whenever every nested mask
has a compatible composite value on the current and diff sides
(recursively), the mask has distinct keys and the trees are canonical
maps: if `Merge(mask, current, diff)` returns `r`, then
`Merge(mask, r, diff)` returns `r` again. -/
theorem c4_amended (mask : UpdateMask) (current diff r : LinearizedObject)
    (h1 : Merge (some mask) current diff = .ok r)
    (h2 : compatB mask current diff = true)
    (h3 : wfMaskB mask = true)
    (h4 : wfMapB current = true) :
    Merge (some mask) r diff = .ok r := by
  obtain ⟨values⟩ := mask
  simp only [wfMaskB, Bool.and_eq_true] at h3
  have h6 : lmSortedB current = true := by
    simp only [wfMapB, Bool.and_eq_true] at h4
    exact h4.1
  exact mergeObjGo_idem_aux (sizeOf values) values (le_refl _) current current diff r h1 h2
    h3.2 h3.1 h4 h6

/-- Witness for `c4_amended` on a concrete compatible mask. -/
theorem c4_amended_witness :
    Merge (some (.mk [(1, (.UPDATE, some (.mk [(2, (.REMOVE, none))])))]))
        [(1, .obj [])] [(1, .obj [])]
      = .ok [(1, .obj [])] := by
  exact c4_amended (.mk [(1, (.UPDATE, some (.mk [(2, (.REMOVE, none))])))])
    [(1, .obj [(2, .scalar 9)])] [(1, .obj [])] [(1, .obj [])] rfl rfl rfl rfl

/-! ## Claims C5 and C6: the slice comparison on grown / shrunk sequences -/

/-- Every key of the list is strictly below the bound `b`. -/
def lmUBB {α : Type} (b : Nat) : List (Nat × α) → Bool
  | [] => true
  | (k, _) :: rest => decide (k < b) && lmUBB b rest

theorem lmUBB_cons {α : Type} {b k : Nat} {v : α} {rest : List (Nat × α)} :
    lmUBB b ((k, v) :: rest) = true ↔ k < b ∧ lmUBB b rest = true := by
  simp [lmUBB]

theorem lmPut_append {α : Type} (l : List (Nat × α)) (b k : Nat) (v : α)
    (hb : lmUBB b l = true) (hk : b ≤ k) : lmPut l k v = l ++ [(k, v)] := by
  induction l with
  | nil => rfl
  | cons hd rest ih =>
    obtain ⟨k0, v0⟩ := hd
    rw [lmUBB_cons] at hb
    obtain ⟨hb1, hb2⟩ := hb
    have h1 : ¬ k < k0 := by omega
    have h2 : ¬ k = k0 := by omega
    simp only [lmPut, if_neg h1, if_neg h2, List.cons_append, List.cons.injEq, true_and]
    exact ih hb2

theorem lmUBB_append_one {α : Type} (l : List (Nat × α)) (b k : Nat) (v : α)
    (hb : lmUBB b l = true) (hk : k < b) : lmUBB b (l ++ [(k, v)]) = true := by
  induction l with
  | nil => simp [lmUBB, hk]
  | cons hd rest ih =>
    obtain ⟨k0, v0⟩ := hd
    rw [lmUBB_cons] at hb
    rw [List.cons_append, lmUBB_cons]
    exact ⟨hb.1, ih hb.2⟩

theorem lmUBB_mono {α : Type} {b b' : Nat} {l : List (Nat × α)}
    (h : b ≤ b') (hb : lmUBB b l = true) : lmUBB b' l = true := by
  induction l with
  | nil => rfl
  | cons hd rest ih =>
    obtain ⟨k, v⟩ := hd
    rw [lmUBB_cons] at hb ⊢
    obtain ⟨hb1, hb2⟩ := hb
    exact ⟨by omega, ih hb2⟩

theorem ofListFrom_length (vs : List LinValue) : ∀ s : Nat, (ofListFrom s vs).length = vs.length := by
  induction vs with
  | nil => intro s; rfl
  | cons v rest ih =>
    intro s
    simp only [ofListFrom, List.length_cons, ih (s + 1)]

theorem lmGet_ofListFrom (vs : List LinValue) :
    ∀ (s j : Nat), lmGet (ofListFrom s vs) j = if s ≤ j then vs[j - s]? else none := by
  induction vs with
  | nil =>
    intro s j
    simp [ofListFrom, lmGet]
  | cons v rest ih =>
    intro s j
    simp only [ofListFrom, lmGet]
    by_cases h1 : s = j
    · subst h1
      simp
    · rw [if_neg h1, ih (s + 1) j]
      by_cases h2 : s ≤ j
      · have h3 : s + 1 ≤ j := by omega
        rw [if_pos h3, if_pos h2]
        have h4 : j - s = (j - (s + 1)) + 1 := by omega
        rw [h4]
        simp
      · have h3 : ¬ s + 1 ≤ j := by omega
        rw [if_neg h3, if_neg h2]

theorem lmGet_ofList (vs : List LinValue) (j : Nat) :
    lmGet (ofList vs) j = vs[j]? := by
  rw [ofList, lmGet_ofListFrom vs 0 j]
  simp

/-- `goEq` against nil on the left: unequal unless the right side is nil. -/
theorem compareValues_nilV_left (v : LinValue) (h : v ≠ .nilV) :
    compareValues .nilV v = .res true .nilV v none := by
  cases v with
  | nilV => exact absurd rfl h
  | scalar n => simp [compareValues, goEq]
  | pairV a b => simp [compareValues, goEq]
  | obj m => simp [compareValues, goEq]
  | sliceV m => simp [compareValues, goEq]
  | dictV m => simp [compareValues, goEq]

/-- A scalar against nil: a full replacement. -/
theorem compareValues_scalar_nilV (x : Nat) :
    compareValues (.scalar x) .nilV = .res true (.scalar x) .nilV none := by
  simp [compareValues, goEq]

/-- One iteration of the slice loop. -/
theorem cmpSliceGo_go (p l : LinearizedSlice) (prevLen latestLen maxLen i : Nat)
    (changed : Bool) (before after : LinearizedSlice) (mask : MaskEntries)
    (h : i < maxLen) :
    cmpSliceGo p l prevLen latestLen maxLen i changed before after mask =
      match compareValues (if i < prevLen then (lmGet p i).getD .nilV else .nilV)
          (if i < latestLen then (lmGet l i).getD .nilV else .nilV) with
      | .panicked => .panicked
      | .res elemChanged elemBefore elemAfter elemMask =>
        if elemChanged then
          if latestLen < prevLen ∧ prevLen - 1 ≤ i then
            cmpSliceGo p l prevLen latestLen maxLen (i + 1) true (lmPut before i elemBefore)
              after (lmPut mask i (.REMOVE, none))
          else
            cmpSliceGo p l prevLen latestLen maxLen (i + 1) true (lmPut before i elemBefore)
              (lmPut after i elemAfter) (lmPut mask i (.UPDATE, elemMask))
        else
          cmpSliceGo p l prevLen latestLen maxLen (i + 1) changed (lmPut before i elemBefore)
            after mask := by
  conv_lhs => rw [cmpSliceGo]
  rw [dif_pos h]

/-- Loop exit. -/
theorem cmpSliceGo_stop (p l : LinearizedSlice) (prevLen latestLen maxLen i : Nat)
    (changed : Bool) (before after : LinearizedSlice) (mask : MaskEntries)
    (h : ¬ i < maxLen) :
    cmpSliceGo p l prevLen latestLen maxLen i changed before after mask =
      .res changed (.sliceV before) (.sliceV after) (some (.mk mask)) := by
  conv_lhs => rw [cmpSliceGo]
  rw [dif_neg h]

/-- Prefix phase: positions whose element comparison reports no change are
skipped, only the `before` accumulator grows. -/
theorem cmpSliceGo_skip (p l : LinearizedSlice) (prevLen latestLen maxLen : Nat) :
    ∀ (cnt i : Nat), i + cnt ≤ maxLen →
      (∀ j, i ≤ j → j < i + cnt →
        ∃ b a m, compareValues
            (if j < prevLen then (lmGet p j).getD .nilV else .nilV)
            (if j < latestLen then (lmGet l j).getD .nilV else .nilV) = .res false b a m) →
      ∀ (changed : Bool) (before after : LinearizedSlice) (mask : MaskEntries),
        ∃ before2 : LinearizedSlice,
          cmpSliceGo p l prevLen latestLen maxLen i changed before after mask
            = cmpSliceGo p l prevLen latestLen maxLen (i + cnt) changed before2 after mask := by
  intro cnt
  induction cnt with
  | zero =>
    intro i _ _ changed before after mask
    exact ⟨before, by rw [Nat.add_zero]⟩
  | succ c ih =>
    intro i hle hcmp changed before after mask
    have hi : i < maxLen := by omega
    obtain ⟨b, a, m, hc⟩ := hcmp i (le_refl i) (by omega)
    obtain ⟨b2, hrec⟩ := ih (i + 1) (by omega)
      (fun j hj1 hj2 => hcmp j (by omega) (by omega)) changed (lmPut before i b) after mask
    refine ⟨b2, ?_⟩
    rw [cmpSliceGo_go p l prevLen latestLen maxLen i changed before after mask hi, hc]
    show cmpSliceGo p l prevLen latestLen maxLen (i + 1) changed (lmPut before i b) after mask
      = cmpSliceGo p l prevLen latestLen maxLen (i + (c + 1)) changed b2 after mask
    rw [hrec, show i + 1 + c = i + (c + 1) from by omega]

/-- Append phase: past the previous length, every surviving position gets a
plain UPDATE entry appended to the mask. -/
theorem cmpSliceGo_append (p l : LinearizedSlice) (prevLen latestLen : Nat) :
    ∀ (cnt i : Nat), i + cnt = latestLen → prevLen ≤ i →
      (∀ j, i ≤ j → j < latestLen → (lmGet l j).getD .nilV ≠ .nilV) →
      ∀ (changed : Bool) (before after : LinearizedSlice) (mask : MaskEntries),
        lmUBB i mask = true →
        ∃ before2 after2,
          cmpSliceGo p l prevLen latestLen latestLen i changed before after mask
            = .res (changed || decide (cnt ≠ 0)) (.sliceV before2) (.sliceV after2)
                (some (.mk (mask ++ updRun i cnt))) := by
  intro cnt
  induction cnt with
  | zero =>
    intro i hi _ _ changed before after mask _
    refine ⟨before, after, ?_⟩
    rw [cmpSliceGo_stop p l prevLen latestLen latestLen i changed before after mask (by omega)]
    simp [updRun]
  | succ c ih =>
    intro i hi hpl hnn changed before after mask hub
    have hilt : i < latestLen := by omega
    have hle : (lmGet l i).getD .nilV ≠ .nilV := hnn i (le_refl i) hilt
    have hc : compareValues (if i < prevLen then (lmGet p i).getD .nilV else .nilV)
        (if i < latestLen then (lmGet l i).getD .nilV else .nilV)
        = .res true .nilV ((lmGet l i).getD .nilV) none := by
      rw [if_neg (by omega), if_pos hilt]
      exact compareValues_nilV_left _ hle
    have hnorem : ¬ (latestLen < prevLen ∧ prevLen - 1 ≤ i) := by omega
    obtain ⟨b2, a2, hrec⟩ := ih (i + 1) (by omega) (by omega)
      (fun j hj1 hj2 => hnn j (by omega) hj2) true (lmPut before i .nilV)
      (lmPut after i ((lmGet l i).getD .nilV))
      (lmPut mask i (.UPDATE, none))
      (by
        rw [lmPut_append mask i i (.UPDATE, none) hub (le_refl i)]
        exact lmUBB_append_one mask (i + 1) i (.UPDATE, none)
          (lmUBB_mono (by omega) hub) (by omega))
    refine ⟨b2, a2, ?_⟩
    rw [cmpSliceGo_go p l prevLen latestLen latestLen i changed before after mask hilt, hc]
    show (if latestLen < prevLen ∧ prevLen - 1 ≤ i then
        cmpSliceGo p l prevLen latestLen latestLen (i + 1) true (lmPut before i .nilV)
          after (lmPut mask i (.REMOVE, none))
      else
        cmpSliceGo p l prevLen latestLen latestLen (i + 1) true (lmPut before i .nilV)
          (lmPut after i ((lmGet l i).getD .nilV)) (lmPut mask i (.UPDATE, none))) = _
    rw [if_neg hnorem, hrec]
    rw [lmPut_append mask i i (.UPDATE, none) hub (le_refl i)]
    simp only [List.append_assoc, List.singleton_append]
    have hup : (i, (UpdateMaskOperation.UPDATE, (none : Option UpdateMask))) :: updRun (i + 1) c
        = updRun i (c + 1) := rfl
    rw [hup]
    simp

/-- Drop phase: past the latest length, each dropped scalar position gets an
UPDATE entry except the very last, which gets the single REMOVE. -/
theorem cmpSliceGo_drop (p l : LinearizedSlice) (prevLen latestLen : Nat)
    (hlt : latestLen < prevLen) :
    ∀ (cnt i : Nat), i + cnt = prevLen → latestLen ≤ i →
      (∀ j, i ≤ j → j < prevLen → ∃ x : Nat, (lmGet p j).getD .nilV = .scalar x) →
      ∀ (changed : Bool) (before after : LinearizedSlice) (mask : MaskEntries),
        lmUBB i mask = true →
        ∃ before2 after2,
          cmpSliceGo p l prevLen latestLen prevLen i changed before after mask
            = .res (changed || decide (cnt ≠ 0)) (.sliceV before2) (.sliceV after2)
                (some (.mk (mask ++ dropRun i cnt))) := by
  intro cnt
  induction cnt with
  | zero =>
    intro i hi _ _ changed before after mask _
    refine ⟨before, after, ?_⟩
    rw [cmpSliceGo_stop p l prevLen latestLen prevLen i changed before after mask (by omega)]
    simp [dropRun]
  | succ c ih =>
    intro i hi hll hsc changed before after mask hub
    have hilt : i < prevLen := by omega
    obtain ⟨x, hx⟩ := hsc i (le_refl i) hilt
    have hc : compareValues (if i < prevLen then (lmGet p i).getD .nilV else .nilV)
        (if i < latestLen then (lmGet l i).getD .nilV else .nilV)
        = .res true (.scalar x) .nilV none := by
      rw [if_pos hilt, if_neg (by omega), hx]
      exact compareValues_scalar_nilV x
    cases c with
    | zero =>
      have hrem : latestLen < prevLen ∧ prevLen - 1 ≤ i := by omega
      refine ⟨lmPut before i (.scalar x), after, ?_⟩
      rw [cmpSliceGo_go p l prevLen latestLen prevLen i changed before after mask hilt, hc]
      show (if latestLen < prevLen ∧ prevLen - 1 ≤ i then
          cmpSliceGo p l prevLen latestLen prevLen (i + 1) true
            (lmPut before i (.scalar x)) after (lmPut mask i (.REMOVE, none))
        else
          cmpSliceGo p l prevLen latestLen prevLen (i + 1) true
            (lmPut before i (.scalar x)) (lmPut after i .nilV)
            (lmPut mask i (.UPDATE, none))) = _
      rw [if_pos hrem,
        cmpSliceGo_stop p l prevLen latestLen prevLen (i + 1) true
          (lmPut before i (.scalar x)) after (lmPut mask i (.REMOVE, none)) (by omega)]
      rw [lmPut_append mask i i (.REMOVE, none) hub (le_refl i)]
      simp [dropRun]
    | succ c2 =>
      have hnorem : ¬ (latestLen < prevLen ∧ prevLen - 1 ≤ i) := by omega
      obtain ⟨b2, a2, hrec⟩ := ih (i + 1) (by omega) (by omega)
        (fun j hj1 hj2 => hsc j (by omega) hj2) true (lmPut before i (.scalar x))
        (lmPut after i .nilV) (lmPut mask i (.UPDATE, none))
        (by
          rw [lmPut_append mask i i (.UPDATE, none) hub (le_refl i)]
          exact lmUBB_append_one mask (i + 1) i (.UPDATE, none)
            (lmUBB_mono (by omega) hub) (by omega))
      refine ⟨b2, a2, ?_⟩
      rw [cmpSliceGo_go p l prevLen latestLen prevLen i changed before after mask hilt, hc]
      show (if latestLen < prevLen ∧ prevLen - 1 ≤ i then
          cmpSliceGo p l prevLen latestLen prevLen (i + 1) true
            (lmPut before i (.scalar x)) after (lmPut mask i (.REMOVE, none))
        else
          cmpSliceGo p l prevLen latestLen prevLen (i + 1) true
            (lmPut before i (.scalar x)) (lmPut after i .nilV)
            (lmPut mask i (.UPDATE, none))) = _
      rw [if_neg hnorem, hrec]
      rw [lmPut_append mask i i (.UPDATE, none) hub (le_refl i)]
      simp only [List.append_assoc, List.singleton_append]
      have hup : (i, (UpdateMaskOperation.UPDATE, (none : Option UpdateMask)))
          :: dropRun (i + 1) (c2 + 1) = dropRun i (c2 + 2) := rfl
      rw [hup]
      simp

/-- Top-level unfolding of `compareValues` on two sequences. -/
theorem compareValues_sliceV (pm lm : List (Nat × LinValue)) :
    compareValues (.sliceV pm) (.sliceV lm)
      = cmpSliceGo pm lm pm.length lm.length (max pm.length lm.length) 0 false [] [] [] := by
  conv_lhs => rw [compareValues]

/-- Claim C5 counterexample: appending one element to a sequence yields a mask
whose operation at the appended position is UPDATE, not ADD. -/
theorem c5_counterexample :
    compareValues (.sliceV [(0, .scalar 1)]) (.sliceV [(0, .scalar 1), (1, .scalar 2)])
      = .res true (.sliceV [(0, .nilV), (1, .nilV)]) (.sliceV [(1, .scalar 2)])
        (some (.mk [(1, (.UPDATE, none))])) := by
  simp [compareValues, cmpSliceGo, goEq, lmGet, lmPut]

/-- Claim C5 (amended): when the latest sequence extends the previous one by a
non-empty run of non-nil elements, and each shared element compares unchanged
against itself, the comparison reports a change and the mask holds exactly one
plain UPDATE entry (no nested mask) for each appended position - no ADD
operations appear. -/
theorem c5_amended (p a : List LinValue) (ha : a ≠ [])
    (hann : ∀ v ∈ a, v ≠ LinValue.nilV)
    (hself : ∀ v ∈ p, ∃ b aa m, compareValues v v = .res false b aa m) :
    ∃ before after,
      compareValues (.sliceV (ofList p)) (.sliceV (ofList (p ++ a)))
        = .res true before after (some (.mk (updRun p.length a.length))) := by
  have hlenP : (ofList p).length = p.length := ofListFrom_length p 0
  have hlenL : (ofList (p ++ a)).length = p.length + a.length := by
    rw [ofList, ofListFrom_length]; simp
  rw [compareValues_sliceV, hlenP, hlenL,
    show max p.length (p.length + a.length) = p.length + a.length from by omega]
  have hskip : ∀ j, 0 ≤ j → j < 0 + p.length →
      ∃ b aa m, compareValues
        (if j < p.length then (lmGet (ofList p) j).getD .nilV else .nilV)
        (if j < p.length + a.length then (lmGet (ofList (p ++ a)) j).getD .nilV else .nilV)
        = .res false b aa m := by
    intro j _ hj2
    have hj : j < p.length := by omega
    rw [if_pos hj, if_pos (by omega), lmGet_ofList, lmGet_ofList,
      List.getElem?_append_left hj]
    cases hp : p[j]? with
    | none =>
      rw [List.getElem?_eq_none_iff] at hp
      omega
    | some v =>
      have hv : v ∈ p := List.getElem?_mem hp
      simpa using hself v hv
  obtain ⟨b0, h1⟩ := cmpSliceGo_skip (ofList p) (ofList (p ++ a)) p.length
    (p.length + a.length) (p.length + a.length) p.length 0 (by omega) hskip false [] [] []
  rw [Nat.zero_add] at h1
  have happh : ∀ j, p.length ≤ j → j < p.length + a.length →
      (lmGet (ofList (p ++ a)) j).getD .nilV ≠ .nilV := by
    intro j hj1 hj2
    rw [lmGet_ofList, List.getElem?_append_right hj1]
    cases hax : a[j - p.length]? with
    | none =>
      rw [List.getElem?_eq_none_iff] at hax
      omega
    | some v =>
      simpa using hann v (List.getElem?_mem hax)
  obtain ⟨b2, a2, h2⟩ := cmpSliceGo_append (ofList p) (ofList (p ++ a)) p.length
    (p.length + a.length) a.length p.length rfl (le_refl _) happh false b0 [] [] rfl
  refine ⟨.sliceV b2, .sliceV a2, ?_⟩
  rw [h1, h2]
  have hk : a.length ≠ 0 := by
    cases a with
    | nil => exact absurd rfl ha
    | cons x xs => simp
  simp [hk]

/-- Witness for the amended C5 at a concrete input. -/
theorem c5_amended_witness :
    ∃ before after,
      compareValues (.sliceV (ofList [LinValue.scalar 1]))
          (.sliceV (ofList ([LinValue.scalar 1] ++ [LinValue.scalar 2])))
        = .res true before after (some (.mk (updRun 1 1))) := by
  have h := c5_amended [.scalar 1] [.scalar 2] (by simp)
    (by
      intro v hv
      rw [List.mem_singleton] at hv
      subst hv
      exact fun h => LinValue.noConfusion h)
    (by
      intro v hv
      rw [List.mem_singleton] at hv
      subst hv
      exact ⟨.nilV, .nilV, none, by simp [compareValues, goEq]⟩)
  simpa using h

/-- Claim C6 counterexample: dropping two trailing elements yields one UPDATE
and one REMOVE, not two REMOVEs. -/
theorem c6_counterexample :
    compareValues (.sliceV [(0, .scalar 1), (1, .scalar 2), (2, .scalar 3)])
        (.sliceV [(0, .scalar 1)])
      = .res true (.sliceV [(0, .nilV), (1, .scalar 2), (2, .scalar 3)]) (.sliceV [(1, .nilV)])
        (some (.mk [(1, (.UPDATE, none)), (2, (.REMOVE, none))])) := by
  simp [compareValues, cmpSliceGo, goEq, lmGet, lmPut]

/-- Claim C6 (amended): when the latest sequence drops a non-empty run of
trailing scalar elements, the mask records a plain UPDATE for each dropped
position except the last, and a single REMOVE at the last dropped position
only. -/
theorem c6_amended (ps ds : List Nat) (hd : ds ≠ []) :
    ∃ before after,
      compareValues
          (.sliceV (ofList (ps.map LinValue.scalar ++ ds.map LinValue.scalar)))
          (.sliceV (ofList (ps.map LinValue.scalar)))
        = .res true before after (some (.mk (dropRun ps.length ds.length))) := by
  have hlenP : (ofList (ps.map LinValue.scalar ++ ds.map LinValue.scalar)).length
      = ps.length + ds.length := by
    rw [ofList, ofListFrom_length]; simp
  have hlenL : (ofList (ps.map LinValue.scalar)).length = ps.length := by
    rw [ofList, ofListFrom_length]; simp
  have hk : ds.length ≠ 0 := by
    cases ds with
    | nil => exact absurd rfl hd
    | cons x xs => simp
  rw [compareValues_sliceV, hlenP, hlenL,
    show max (ps.length + ds.length) ps.length = ps.length + ds.length from by omega]
  have hskip : ∀ j, 0 ≤ j → j < 0 + ps.length →
      ∃ b aa m, compareValues
        (if j < ps.length + ds.length then
          (lmGet (ofList (ps.map LinValue.scalar ++ ds.map LinValue.scalar)) j).getD .nilV
        else .nilV)
        (if j < ps.length then (lmGet (ofList (ps.map LinValue.scalar)) j).getD .nilV
        else .nilV)
        = .res false b aa m := by
    intro j _ hj2
    have hj : j < ps.length := by omega
    have hjm : j < (ps.map LinValue.scalar).length := by
      simp only [List.length_map]; omega
    rw [if_pos (by omega), if_pos hj, lmGet_ofList, lmGet_ofList,
      List.getElem?_append_left hjm, List.getElem?_eq_getElem hjm]
    exact ⟨.nilV, .nilV, none, by simp [compareValues, goEq]⟩
  obtain ⟨b0, h1⟩ := cmpSliceGo_skip
    (ofList (ps.map LinValue.scalar ++ ds.map LinValue.scalar))
    (ofList (ps.map LinValue.scalar)) (ps.length + ds.length) ps.length
    (ps.length + ds.length) ps.length 0 (by omega) hskip false [] [] []
  rw [Nat.zero_add] at h1
  have hdropsc : ∀ j, ps.length ≤ j → j < ps.length + ds.length →
      ∃ x : Nat,
        (lmGet (ofList (ps.map LinValue.scalar ++ ds.map LinValue.scalar)) j).getD .nilV
          = .scalar x := by
    intro j hj1 hj2
    have hj1m : (ps.map LinValue.scalar).length ≤ j := by
      simp only [List.length_map]; omega
    have ht : j - (ps.map LinValue.scalar).length < ds.length := by
      simp only [List.length_map]; omega
    rw [lmGet_ofList, List.getElem?_append_right hj1m, List.getElem?_map,
      List.getElem?_eq_getElem ht]
    exact ⟨ds[j - (ps.map LinValue.scalar).length], rfl⟩
  obtain ⟨b2, a2, h2⟩ := cmpSliceGo_drop
    (ofList (ps.map LinValue.scalar ++ ds.map LinValue.scalar))
    (ofList (ps.map LinValue.scalar)) (ps.length + ds.length) ps.length (by omega)
    ds.length ps.length (by omega) (le_refl _) hdropsc false b0 [] [] rfl
  refine ⟨.sliceV b2, .sliceV a2, ?_⟩
  rw [h1, h2]
  simp [hk]

/-- Witness for the amended C6 at a concrete input. -/
theorem c6_amended_witness :
    ∃ before after,
      compareValues
          (.sliceV (ofList ([1].map LinValue.scalar ++ [2, 3].map LinValue.scalar)))
          (.sliceV (ofList ([1].map LinValue.scalar)))
        = .res true before after (some (.mk (dropRun 1 2))) := by
  have h := c6_amended [1] [2, 3] (by simp)
  simpa using h

/-! ## Claim C1: the Diff / Merge round trip -/

/-- A flat record: every value is a scalar. -/
def flatB : List (Nat × LinValue) → Bool
  | [] => true
  | (_, .scalar _) :: rest => flatB rest
  | _ => false

theorem flatB_cons {k : Nat} {v : LinValue} {rest : List (Nat × LinValue)} :
    flatB ((k, v) :: rest) = true ↔ (∃ x, v = LinValue.scalar x) ∧ flatB rest = true := by
  cases v <;> simp [flatB]

theorem flat_get {l : List (Nat × LinValue)} {k : Nat} {v : LinValue}
    (hf : flatB l = true) (hg : lmGet l k = some v) : ∃ x, v = LinValue.scalar x := by
  induction l with
  | nil => cases hg
  | cons hd rest ih =>
    obtain ⟨k0, v0⟩ := hd
    rw [flatB_cons] at hf
    obtain ⟨⟨x0, hx0⟩, hf2⟩ := hf
    rw [lmGet] at hg
    by_cases h : k0 = k
    · rw [if_pos h] at hg
      exact ⟨x0, by rw [← Option.some_inj.mp hg, hx0]⟩
    · rw [if_neg h] at hg
      exact ih hf2 hg

theorem lmGet_some_mem {α : Type} {l : List (Nat × α)} {k : Nat} {v : α}
    (h : lmGet l k = some v) : (k, v) ∈ l := by
  induction l with
  | nil => cases h
  | cons hd rest ih =>
    obtain ⟨k0, v0⟩ := hd
    rw [lmGet] at h
    by_cases h1 : k0 = k
    · subst h1
      rw [if_pos rfl] at h
      rw [Option.some_inj.mp h]
      exact List.mem_cons_self _ _
    · rw [if_neg h1] at h
      exact List.mem_cons_of_mem _ (ih h)

theorem lmGet_none_not_mem {α : Type} {l : List (Nat × α)} {k : Nat}
    (h : lmGet l k = none) : ∀ v, (k, v) ∉ l := by
  induction l with
  | nil => intro v hv; cases hv
  | cons hd rest ih =>
    obtain ⟨k0, v0⟩ := hd
    rw [lmGet] at h
    by_cases h1 : k0 = k
    · rw [if_pos h1] at h
      cases h
    · rw [if_neg h1] at h
      intro v hv
      rcases List.mem_cons.mp hv with h2 | h2
      · exact h1 (congrArg Prod.fst h2).symm
      · exact ih h v h2

/-- Comparing two scalars: changed exactly when the values differ. -/
theorem compareValues_scalar_scalar (x y : Nat) :
    compareValues (.scalar x) (.scalar y)
      = if x = y then .res false .nilV .nilV none
        else .res true (.scalar x) (.scalar y) none := by
  by_cases h : x = y
  · subst h
    simp [compareValues, goEq]
  · simp [compareValues, goEq, h]

/-- The first `Diff` loop keeps the `after` and `masks` accumulators sorted. -/
theorem diffGo_sorted :
    ∀ (A : List (Nat × LinValue)) (B : LinearizedObject)
      (before after : LinearizedObject) (masks : MaskEntries)
      (b' a' : LinearizedObject) (m' : MaskEntries),
      diffGo A B before after masks = some (b', a', m') →
      lmSortedB after = true → lmSortedB masks = true →
      lmSortedB a' = true ∧ lmSortedB m' = true := by
  intro A
  induction A with
  | nil =>
    intro B before after masks b' a' m' h ha hm
    simp only [diffGo, Option.some.injEq, Prod.mk.injEq] at h
    obtain ⟨h1, h2, h3⟩ := h
    subst h2
    subst h3
    exact ⟨ha, hm⟩
  | cons hd rest ih =>
    intro B before after masks b' a' m' h ha hm
    obtain ⟨k0, v0⟩ := hd
    rw [diffGo] at h
    cases hB : lmGet B k0 with
    | none =>
      simp only [hB] at h
      exact ih B _ _ _ b' a' m' h (lmPut_sorted _ _ _ ha) (lmPut_sorted _ _ _ hm)
    | some lv =>
      simp only [hB] at h
      cases hc : compareValues v0 lv with
      | panicked => simp only [hc] at h; cases h
      | res ch nb na nm =>
        simp only [hc] at h
        cases ch with
        | false =>
          simp only [Bool.false_eq_true, if_false] at h
          exact ih B _ _ _ b' a' m' h ha hm
        | true =>
          simp only [if_true] at h
          exact ih B _ _ _ b' a' m' h (lmPut_sorted _ _ _ ha) (lmPut_sorted _ _ _ hm)

/-- The second `Diff` loop keeps the `after` and `masks` accumulators sorted. -/
theorem diffAddScan_sorted :
    ∀ (L : List (Nat × LinValue)) (prev : LinearizedObject)
      (before after : LinearizedObject) (masks : MaskEntries)
      (b' a' : LinearizedObject) (m' : MaskEntries),
      diffAddScan L prev before after masks = (b', a', m') →
      lmSortedB after = true → lmSortedB masks = true →
      lmSortedB a' = true ∧ lmSortedB m' = true := by
  intro L
  induction L with
  | nil =>
    intro prev before after masks b' a' m' h ha hm
    simp only [diffAddScan, Prod.mk.injEq] at h
    obtain ⟨h1, h2, h3⟩ := h
    subst h2
    subst h3
    exact ⟨ha, hm⟩
  | cons hd rest ih =>
    intro prev before after masks b' a' m' h ha hm
    obtain ⟨k0, v0⟩ := hd
    rw [diffAddScan] at h
    cases hp : lmGet prev k0 with
    | some pv =>
      simp only [hp] at h
      exact ih prev _ _ _ b' a' m' h ha hm
    | none =>
      simp only [hp] at h
      exact ih prev _ _ _ b' a' m' h (lmPut_sorted _ _ _ ha) (lmPut_sorted _ _ _ hm)

/-- Per-key characterization of the first `Diff` loop on flat sorted records:
keys absent from `previous` leave the accumulators untouched, keys of
`previous` produce a REMOVE when dropped, an UPDATE (with the latest value
in `after`) when the scalar changed, and nothing when unchanged. -/
theorem diffGo_spec (B : LinearizedObject) (hB : flatB B = true) :
    ∀ (A : List (Nat × LinValue)), flatB A = true → lmSortedB A = true →
    ∀ (before after : LinearizedObject) (masks : MaskEntries),
      ∃ (b' a' : LinearizedObject) (m' : MaskEntries),
        diffGo A B before after masks = some (b', a', m')
        ∧ (∀ k, lmGet A k = none →
            lmGet m' k = lmGet masks k ∧ lmGet a' k = lmGet after k)
        ∧ (∀ k x, (k, LinValue.scalar x) ∈ A →
            lmGet masks k = none → lmGet after k = none →
            (lmGet B k = none →
              lmGet m' k = some (.REMOVE, none) ∧ lmGet a' k = some .nilV)
            ∧ (∀ y, lmGet B k = some (.scalar y) →
                (x = y → lmGet m' k = none ∧ lmGet a' k = none)
                ∧ (x ≠ y → lmGet m' k = some (.UPDATE, none)
                    ∧ lmGet a' k = some (.scalar y)))) := by
  intro A
  induction A with
  | nil =>
    intro _ _ before after masks
    exact ⟨before, after, masks, by rw [diffGo], fun k _ => ⟨rfl, rfl⟩,
      fun k x hmem => absurd hmem (List.not_mem_nil _)⟩
  | cons hd rest ih =>
    intro hfA hsA before after masks
    obtain ⟨k0, v0⟩ := hd
    rw [flatB_cons] at hfA
    obtain ⟨⟨x0, hx0⟩, hfrest⟩ := hfA
    subst hx0
    rw [lmSortedB_cons] at hsA
    obtain ⟨hlb, hsrest⟩ := hsA
    have hk0rest : lmGet rest k0 = none := lmGet_none_of_LB hlb (le_refl k0)
    cases hBk : lmGet B k0 with
    | none =>
      obtain ⟨b', a', m', hrun, hframe, hproc⟩ := ih hfrest hsrest
        (lmPut before k0 (.scalar x0)) (lmPut after k0 .nilV)
        (lmPut masks k0 (.REMOVE, none))
      refine ⟨b', a', m', ?_, ?_, ?_⟩
      · rw [diffGo]
        simp only [hBk]
        exact hrun
      · intro k hk
        rw [lmGet] at hk
        by_cases he : k0 = k
        · rw [if_pos he] at hk; cases hk
        · rw [if_neg he] at hk
          obtain ⟨h1, h2⟩ := hframe k hk
          exact ⟨h1.trans (lmGet_put_ne masks k0 k _ he),
            h2.trans (lmGet_put_ne after k0 k _ he)⟩
      · intro k x hmem hmk hak
        rcases List.mem_cons.mp hmem with hh | hh
        · injection hh with hk1 hk2
          injection hk2 with hx
          subst hk1
          subst hx
          obtain ⟨f1, f2⟩ := hframe k hk0rest
          constructor
          · intro _
            exact ⟨f1.trans (lmGet_put_self masks k _),
              f2.trans (lmGet_put_self after k _)⟩
          · intro y hy
            rw [hBk] at hy
            cases hy
        · have hklt : k0 < k := lmLB_lt_of_mem hlb hh
          have hne : k0 ≠ k := by omega
          refine hproc k x hh ?_ ?_
          · rw [lmGet_put_ne masks k0 k _ hne]; exact hmk
          · rw [lmGet_put_ne after k0 k _ hne]; exact hak
    | some lv =>
      obtain ⟨y0, hy0⟩ := flat_get hB hBk
      subst hy0
      by_cases hxy : x0 = y0
      · subst hxy
        obtain ⟨b', a', m', hrun, hframe, hproc⟩ := ih hfrest hsrest before after masks
        refine ⟨b', a', m', ?_, ?_, ?_⟩
        · rw [diffGo]
          simp [hBk, compareValues_scalar_scalar]
          exact hrun
        · intro k hk
          rw [lmGet] at hk
          by_cases he : k0 = k
          · rw [if_pos he] at hk; cases hk
          · rw [if_neg he] at hk
            exact hframe k hk
        · intro k x hmem hmk hak
          rcases List.mem_cons.mp hmem with hh | hh
          · injection hh with hk1 hk2
            injection hk2 with hx
            subst hk1
            subst hx
            obtain ⟨f1, f2⟩ := hframe k hk0rest
            constructor
            · intro hc
              rw [hBk] at hc
              cases hc
            · intro y hy
              rw [hBk] at hy
              injection hy with hy2
              injection hy2 with hyy
              constructor
              · intro _
                exact ⟨f1.trans hmk, f2.trans hak⟩
              · intro hne
                exact absurd hyy hne
          · exact hproc k x hh hmk hak
      · obtain ⟨b', a', m', hrun, hframe, hproc⟩ := ih hfrest hsrest
          (lmPut before k0 (.scalar x0)) (lmPut after k0 (.scalar y0))
          (lmPut masks k0 (.UPDATE, none))
        refine ⟨b', a', m', ?_, ?_, ?_⟩
        · rw [diffGo]
          simp [hBk, compareValues_scalar_scalar, hxy]
          exact hrun
        · intro k hk
          rw [lmGet] at hk
          by_cases he : k0 = k
          · rw [if_pos he] at hk; cases hk
          · rw [if_neg he] at hk
            obtain ⟨h1, h2⟩ := hframe k hk
            exact ⟨h1.trans (lmGet_put_ne masks k0 k _ he),
              h2.trans (lmGet_put_ne after k0 k _ he)⟩
        · intro k x hmem hmk hak
          rcases List.mem_cons.mp hmem with hh | hh
          · injection hh with hk1 hk2
            injection hk2 with hx
            subst hk1
            subst hx
            obtain ⟨f1, f2⟩ := hframe k hk0rest
            constructor
            · intro hc
              rw [hBk] at hc
              cases hc
            · intro y hy
              rw [hBk] at hy
              injection hy with hy2
              injection hy2 with hyy
              subst hyy
              constructor
              · intro hxe
                exact absurd hxe hxy
              · intro _
                exact ⟨f1.trans (lmGet_put_self masks k _),
                  f2.trans (lmGet_put_self after k _)⟩
          · have hklt : k0 < k := lmLB_lt_of_mem hlb hh
            have hne : k0 ≠ k := by omega
            refine hproc k x hh ?_ ?_
            · rw [lmGet_put_ne masks k0 k _ hne]; exact hmk
            · rw [lmGet_put_ne after k0 k _ hne]; exact hak

/-- Per-key characterization of the second `Diff` loop: keys of `latest`
already present in `previous` (and keys outside `latest`) leave the
accumulators untouched; new keys get an ADD entry and their latest value in
`after`. -/
theorem diffAddScan_spec (prev : LinearizedObject) :
    ∀ (L : List (Nat × LinValue)), lmSortedB L = true →
    ∀ (before after : LinearizedObject) (masks : MaskEntries)
      (b' a' : LinearizedObject) (m' : MaskEntries),
      diffAddScan L prev before after masks = (b', a', m') →
      (∀ k, lmGet L k = none →
        lmGet m' k = lmGet masks k ∧ lmGet a' k = lmGet after k)
      ∧ (∀ k v, (k, v) ∈ L →
          ((∃ pv, lmGet prev k = some pv) →
            lmGet m' k = lmGet masks k ∧ lmGet a' k = lmGet after k)
          ∧ (lmGet prev k = none → lmGet masks k = none → lmGet after k = none →
              lmGet m' k = some (.ADD, none) ∧ lmGet a' k = some v)) := by
  intro L
  induction L with
  | nil =>
    intro _ before after masks b' a' m' h
    simp only [diffAddScan, Prod.mk.injEq] at h
    obtain ⟨h1, h2, h3⟩ := h
    subst h2
    subst h3
    exact ⟨fun k _ => ⟨rfl, rfl⟩, fun k v hmem => absurd hmem (List.not_mem_nil _)⟩
  | cons hd rest ih =>
    intro hsL before after masks b' a' m' h
    obtain ⟨k0, v0⟩ := hd
    rw [lmSortedB_cons] at hsL
    obtain ⟨hlb, hsrest⟩ := hsL
    have hk0rest : lmGet rest k0 = none := lmGet_none_of_LB hlb (le_refl k0)
    rw [diffAddScan] at h
    cases hp : lmGet prev k0 with
    | some pv0 =>
      simp only [hp] at h
      obtain ⟨hframe, hproc⟩ := ih hsrest before after masks b' a' m' h
      constructor
      · intro k hk
        rw [lmGet] at hk
        by_cases he : k0 = k
        · rw [if_pos he] at hk; cases hk
        · rw [if_neg he] at hk
          exact hframe k hk
      · intro k v hmem
        rcases List.mem_cons.mp hmem with hh | hh
        · injection hh with hk1 hk2
          subst hk1
          subst hk2
          constructor
          · intro _
            exact hframe k hk0rest
          · intro hpn
            rw [hp] at hpn
            cases hpn
        · exact hproc k v hh
    | none =>
      simp only [hp] at h
      obtain ⟨hframe, hproc⟩ := ih hsrest (lmPut before k0 .nilV)
        (lmPut after k0 v0) (lmPut masks k0 (.ADD, none)) b' a' m' h
      constructor
      · intro k hk
        rw [lmGet] at hk
        by_cases he : k0 = k
        · rw [if_pos he] at hk; cases hk
        · rw [if_neg he] at hk
          obtain ⟨h1, h2⟩ := hframe k hk
          exact ⟨h1.trans (lmGet_put_ne masks k0 k _ he),
            h2.trans (lmGet_put_ne after k0 k _ he)⟩
      · intro k v hmem
        rcases List.mem_cons.mp hmem with hh | hh
        · injection hh with hk1 hk2
          subst hk1
          subst hk2
          obtain ⟨f1, f2⟩ := hframe k hk0rest
          constructor
          · intro hex
            obtain ⟨pv, hpv⟩ := hex
            rw [hp] at hpv
            cases hpv
          · intro _ _ _
            exact ⟨f1.trans (lmGet_put_self masks k _),
              f2.trans (lmGet_put_self after k _)⟩
        · have hklt : k0 < k := lmLB_lt_of_mem hlb hh
          have hne : k0 ≠ k := by omega
          obtain ⟨hc1, hc2⟩ := hproc k v hh
          constructor
          · intro hex
            obtain ⟨h1, h2⟩ := hc1 hex
            exact ⟨h1.trans (lmGet_put_ne masks k0 k _ hne),
              h2.trans (lmGet_put_ne after k0 k _ hne)⟩
          · intro hpn hmk hak
            refine hc2 hpn ?_ ?_
            · rw [lmGet_put_ne masks k0 k _ hne]; exact hmk
            · rw [lmGet_put_ne after k0 k _ hne]; exact hak

theorem mergeStep_add (pos : Nat) (masks : Option UpdateMask)
    (merged current diff : LinearizedObject) :
    mergeStep pos .ADD masks merged current diff
      = .cont (overwriteFromDiff merged diff pos) := by
  unfold mergeStep
  rfl

theorem mergeStep_remove (pos : Nat) (masks : Option UpdateMask)
    (merged current diff : LinearizedObject) :
    mergeStep pos .REMOVE masks merged current diff = .cont (lmDel merged pos) := by
  unfold mergeStep
  rfl

theorem mergeStep_update_none (pos : Nat) (merged current diff : LinearizedObject) :
    mergeStep pos .UPDATE none merged current diff
      = .cont (overwriteFromDiff merged diff pos) := by
  unfold mergeStep
  rfl

/-- `Merge`'s loop over a sorted mask whose entries carry no nested masks
always succeeds; each masked key ends as the diff's value (ADD/UPDATE) or is
removed, and unmasked keys keep the accumulator's value. -/
theorem mergeObjGo_flat (current diff : LinearizedObject) :
    ∀ (entries : List (Nat × (UpdateMaskOperation × Option UpdateMask))),
      lmSortedB entries = true →
      (∀ k e, (k, e) ∈ entries → e.2 = none) →
      ∀ merged : LinearizedObject, lmSortedB merged = true →
        ∃ r, mergeObjGo entries merged current diff = .ok r
          ∧ lmSortedB r = true
          ∧ (∀ k, lmGet entries k = none → lmGet r k = lmGet merged k)
          ∧ (∀ k op, (k, (op, (none : Option UpdateMask))) ∈ entries →
              (op = .REMOVE → lmGet r k = none)
              ∧ (∀ dv, op ≠ .REMOVE → lmGet diff k = some dv →
                  lmGet r k = some dv)) := by
  intro entries
  induction entries with
  | nil =>
    intro _ _ merged hsm
    exact ⟨merged, by rw [mergeObjGo], hsm, fun k _ => rfl,
      fun k op hmem => absurd hmem (List.not_mem_nil _)⟩
  | cons hd rest ih =>
    intro hs hflat merged hsm
    obtain ⟨k0, e0⟩ := hd
    obtain ⟨op0, m0⟩ := e0
    have hm0 : m0 = none := hflat k0 (op0, m0) (List.mem_cons_self _ _)
    subst hm0
    rw [lmSortedB_cons] at hs
    obtain ⟨hlb, hsrest⟩ := hs
    have hk0rest : lmGet rest k0 = none := lmGet_none_of_LB hlb (le_refl k0)
    have hflatrest : ∀ k e, (k, e) ∈ rest → e.2 = none :=
      fun k e hm => hflat k e (List.mem_cons_of_mem _ hm)
    cases op0 with
    | REMOVE =>
      obtain ⟨r, hrun, hrs, hframe, hproc⟩ := ih hsrest hflatrest
        (lmDel merged k0) (lmDel_sorted _ _ hsm)
      refine ⟨r, ?_, hrs, ?_, ?_⟩
      · rw [mergeObjGo]
        simp only [mergeStep_remove]
        exact hrun
      · intro k hk
        rw [lmGet] at hk
        by_cases he : k0 = k
        · rw [if_pos he] at hk; cases hk
        · rw [if_neg he] at hk
          exact (hframe k hk).trans (lmGet_del_ne merged k0 k he)
      · intro k op hmem
        rcases List.mem_cons.mp hmem with hh | hh
        · injection hh with hk1 hk2
          injection hk2 with hop _
          subst hk1
          subst hop
          constructor
          · intro _
            exact (hframe k hk0rest).trans (lmGet_del_self merged k hsm)
          · intro dv hne _
            exact absurd rfl hne
        · exact hproc k op hh
    | ADD =>
      obtain ⟨r, hrun, hrs, hframe, hproc⟩ := ih hsrest hflatrest
        (overwriteFromDiff merged diff k0) (overwriteFromDiff_sorted _ _ _ hsm)
      refine ⟨r, ?_, hrs, ?_, ?_⟩
      · rw [mergeObjGo]
        simp only [mergeStep_add]
        exact hrun
      · intro k hk
        rw [lmGet] at hk
        by_cases he : k0 = k
        · rw [if_pos he] at hk; cases hk
        · rw [if_neg he] at hk
          exact (hframe k hk).trans (overwriteFromDiff_get_ne merged diff k0 k he)
      · intro k op hmem
        rcases List.mem_cons.mp hmem with hh | hh
        · injection hh with hk1 hk2
          injection hk2 with hop _
          subst hk1
          subst hop
          constructor
          · intro hop
            cases hop
          · intro dv _ hdv
            exact (hframe k hk0rest).trans (overwrite_get_self merged diff k dv hdv)
        · exact hproc k op hh
    | UPDATE =>
      obtain ⟨r, hrun, hrs, hframe, hproc⟩ := ih hsrest hflatrest
        (overwriteFromDiff merged diff k0) (overwriteFromDiff_sorted _ _ _ hsm)
      refine ⟨r, ?_, hrs, ?_, ?_⟩
      · rw [mergeObjGo]
        simp only [mergeStep_update_none]
        exact hrun
      · intro k hk
        rw [lmGet] at hk
        by_cases he : k0 = k
        · rw [if_pos he] at hk; cases hk
        · rw [if_neg he] at hk
          exact (hframe k hk).trans (overwriteFromDiff_get_ne merged diff k0 k he)
      · intro k op hmem
        rcases List.mem_cons.mp hmem with hh | hh
        · injection hh with hk1 hk2
          injection hk2 with hop _
          subst hk1
          subst hop
          constructor
          · intro hop
            cases hop
          · intro dv _ hdv
            exact (hframe k hk0rest).trans (overwrite_get_self merged diff k dv hdv)
        · exact hproc k op hh

/-- Claim C1 counterexample: with a message field replaced by a scalar, the
comparison's composite-mismatch branch reports "no change", so the mask
misses key 1 and the merge keeps the stale record: Merge(mask, A, after)
differs from B. -/
theorem c1_counterexample :
    Diff [(1, .obj [(1, .scalar 0)]), (2, .scalar 0)] [(1, .scalar 5), (2, .scalar 1)]
        = .res (some [(2, .scalar 0)]) (some [(2, .scalar 1)])
            (some (.mk [(2, (.UPDATE, none))]))
      ∧ Merge (some (.mk [(2, (.UPDATE, none))]))
            [(1, .obj [(1, .scalar 0)]), (2, .scalar 0)] [(2, .scalar 1)]
          = .ok [(1, .obj [(1, .scalar 0)]), (2, .scalar 1)]
      ∧ ([(1, LinValue.obj [(1, .scalar 0)]), (2, LinValue.scalar 1)]
            : LinearizedObject)
          ≠ [(1, .scalar 5), (2, .scalar 1)] := by
  refine ⟨?_, ?_, ?_⟩
  · simp [Diff, diffGo, diffAddScan, compareValues, goEq, lmGet, lmPut]
  · rfl
  · intro h
    simp at h

/-- Claim C1 (amended): for flat scalar records in canonical sorted form the
round trip holds: whenever Diff(A, B) returns a populated (before, after,
mask), Merge(mask, A, after) reconstructs B exactly. -/
theorem c1_amended (A B : LinearizedObject)
    (hA : flatB A = true) (hB : flatB B = true)
    (hsA : lmSortedB A = true) (hsB : lmSortedB B = true)
    (before after : LinearizedObject) (mask : UpdateMask)
    (hd : Diff A B = .res (some before) (some after) (some mask)) :
    Merge (some mask) A after = .ok B := by
  obtain ⟨b1, a1, m1, hrun1, hframe1, hproc1⟩ := diffGo_spec B hB A hA hsA [] [] []
  rcases hscan : diffAddScan B A b1 a1 m1 with ⟨b2, a2, m2⟩
  obtain ⟨hframe2, hproc2⟩ := diffAddScan_spec A B hsB b1 a1 m1 b2 a2 m2 hscan
  obtain ⟨hsa1, hsm1⟩ := diffGo_sorted A B [] [] [] b1 a1 m1 hrun1 rfl rfl
  obtain ⟨hsa2, hsm2⟩ := diffAddScan_sorted B A b1 a1 m1 b2 a2 m2 hscan hsa1 hsm1
  unfold Diff at hd
  simp only [hrun1, hscan] at hd
  by_cases hemp : m2.isEmpty = true
  · rw [if_pos hemp] at hd
    simp at hd
  · rw [if_neg hemp] at hd
    simp only [DiffRes.res.injEq, Option.some.injEq] at hd
    obtain ⟨hb, ha, hm⟩ := hd
    subst ha
    subst hm
    have hchar : ∀ k,
        (lmGet A k = none → lmGet B k = none → lmGet m2 k = none)
        ∧ (∀ x, lmGet A k = some (.scalar x) → lmGet B k = none →
            lmGet m2 k = some (.REMOVE, none))
        ∧ (∀ y, lmGet A k = none → lmGet B k = some (.scalar y) →
            lmGet m2 k = some (.ADD, none) ∧ lmGet a2 k = some (.scalar y))
        ∧ (∀ x y, lmGet A k = some (.scalar x) → lmGet B k = some (.scalar y) →
            (x = y → lmGet m2 k = none)
            ∧ (x ≠ y → lmGet m2 k = some (.UPDATE, none)
                ∧ lmGet a2 k = some (.scalar y))) := by
      intro k
      refine ⟨?_, ?_, ?_, ?_⟩
      · intro hAk hBk
        obtain ⟨f1, f2⟩ := hframe1 k hAk
        obtain ⟨g1, g2⟩ := hframe2 k hBk
        rw [g1, f1]
        rfl
      · intro x hAk hBk
        have hmem := lmGet_some_mem hAk
        obtain ⟨p1, _⟩ := hproc1 k x hmem rfl rfl
        obtain ⟨r1, r2⟩ := p1 hBk
        obtain ⟨g1, g2⟩ := hframe2 k hBk
        rw [g1, r1]
      · intro y hAk hBk
        obtain ⟨f1, f2⟩ := hframe1 k hAk
        have hmem := lmGet_some_mem hBk
        obtain ⟨_, p2⟩ := hproc2 k (.scalar y) hmem
        exact p2 hAk (f1.trans rfl) (f2.trans rfl)
      · intro x y hAk hBk
        have hmemA := lmGet_some_mem hAk
        obtain ⟨_, p1y⟩ := hproc1 k x hmemA rfl rfl
        obtain ⟨q1, q2⟩ := p1y y hBk
        have hmemB := lmGet_some_mem hBk
        obtain ⟨p2ex, _⟩ := hproc2 k (.scalar y) hmemB
        obtain ⟨g1, g2⟩ := p2ex ⟨.scalar x, hAk⟩
        constructor
        · intro hxe
          exact g1.trans (q1 hxe).1
        · intro hne
          obtain ⟨u1, u2⟩ := q2 hne
          exact ⟨g1.trans u1, g2.trans u2⟩
    have hflatm2 : ∀ k e, (k, e) ∈ m2 → e.2 = none := by
      intro k e hmem
      have hg := lmGet_eq_of_mem_sorted hsm2 hmem
      obtain ⟨c1, c2, c3, c4⟩ := hchar k
      cases hAk : lmGet A k with
      | none =>
        cases hBk : lmGet B k with
        | none =>
          rw [c1 hAk hBk] at hg
          cases hg
        | some bv =>
          obtain ⟨y, hy⟩ := flat_get hB hBk
          subst hy
          obtain ⟨h1, _⟩ := c3 y hAk hBk
          rw [h1] at hg
          injection hg with hg2
          rw [← hg2]
      | some av =>
        obtain ⟨x, hx⟩ := flat_get hA hAk
        subst hx
        cases hBk : lmGet B k with
        | none =>
          rw [c2 x hAk hBk] at hg
          injection hg with hg2
          rw [← hg2]
        | some bv =>
          obtain ⟨y, hy⟩ := flat_get hB hBk
          subst hy
          obtain ⟨d1, d2⟩ := c4 x y hAk hBk
          by_cases hxy : x = y
          · rw [d1 hxy] at hg
            cases hg
          · rw [(d2 hxy).1] at hg
            injection hg with hg2
            rw [← hg2]
    obtain ⟨r, hrunM, hrs, hframeM, hprocM⟩ := mergeObjGo_flat A a2 m2 hsm2 hflatm2 A hsA
    have hget : ∀ k, lmGet r k = lmGet B k := by
      intro k
      obtain ⟨c1, c2, c3, c4⟩ := hchar k
      cases hAk : lmGet A k with
      | none =>
        cases hBk : lmGet B k with
        | none =>
          rw [hframeM k (c1 hAk hBk)]
          exact hAk
        | some bv =>
          obtain ⟨y, hy⟩ := flat_get hB hBk
          subst hy
          obtain ⟨h1, h2⟩ := c3 y hAk hBk
          have hmem := lmGet_some_mem h1
          obtain ⟨_, pr⟩ := hprocM k .ADD hmem
          exact pr (.scalar y) (by intro hc; cases hc) h2
      | some av =>
        obtain ⟨x, hx⟩ := flat_get hA hAk
        subst hx
        cases hBk : lmGet B k with
        | none =>
          have hmk := c2 x hAk hBk
          have hmem := lmGet_some_mem hmk
          obtain ⟨pr, _⟩ := hprocM k .REMOVE hmem
          exact pr rfl
        | some bv =>
          obtain ⟨y, hy⟩ := flat_get hB hBk
          subst hy
          obtain ⟨d1, d2⟩ := c4 x y hAk hBk
          by_cases hxy : x = y
          · rw [hframeM k (d1 hxy), hAk, hxy]
          · obtain ⟨u1, u2⟩ := d2 hxy
            have hmem := lmGet_some_mem u1
            obtain ⟨_, pr⟩ := hprocM k .UPDATE hmem
            exact pr (.scalar y) (by intro hc; cases hc) u2
    have hr : r = B := lmExt r B hrs hsB hget
    show Merge (some (UpdateMask.mk m2)) A a2 = .ok B
    unfold Merge mergeObj
    rw [hrunM, hr]

/-- Witness for the amended C1 at a concrete input. -/
theorem c1_amended_witness :
    Merge (some (UpdateMask.mk [(1, (.UPDATE, none))])) [(1, .scalar 0)] [(1, .scalar 1)]
      = .ok [(1, .scalar 1)] :=
  c1_amended [(1, .scalar 0)] [(1, .scalar 1)] rfl rfl rfl rfl
    [(1, .scalar 0)] [(1, .scalar 1)] (.mk [(1, (.UPDATE, none))])
    (by simp [Diff, diffGo, diffAddScan, compareValues, goEq, lmGet, lmPut])

end Linearize
